import Mathlib

/-!
Verification of the explicit free-list allocator in `src/mm.c` against its
natural-language specification.

Modelling conventions (following the spec's design notes, §9):
the heap is one growable arena; blocks are kept in physical order in a
`List Block`, block addresses are byte offsets from the heap base (the base is
address 0), and a block's address is the sum of the sizes of the blocks before
it.  Payload contents are tracked at word (8-byte) granularity as `List Nat`,
one entry per payload word.  The embedded free list is represented, as the spec
suggests, by a `List Nat` of block addresses in the circular order starting at
the anchor `flist_first` (the list head is the anchor).

The helper layers (`mminline.h`, `mm.h`, `memlib.h`) are not part of the
sources; the Block Layout Manager and Free List operations are modelled from
the spec (§4.1, §4.2) and carry `Modelled from the spec:` doc comments.
Everything else is translated from `src/mm.c`.

Machine integers: sizes are C `size_t` (64-bit, non-negative); the code's
`(int) size < 0` checks are modelled by inspecting the low 32 bits of the
`Nat` value (LP64, two's complement truncation as implemented by gcc/clang).
Fallible operations return `Option`/`MRes`; `none`/`MRes.ub` marks undefined
behaviour (bad pointer arithmetic, failed `assert`).
-/

namespace MM

/-- Word size in bytes (`WORD_SIZE` of the handout headers; the alignment
unit of the spec's contractual constants, §6). -/
def WORD_SIZE : Nat := 8

/-- Combined size of the header and footer tags (`TAGS_SIZE`): two words. -/
def TAGS_SIZE : Nat := 2 * WORD_SIZE

/-- Minimum block size: tag overhead plus two embedded link fields
(spec §6: "minimum block size (≥ tag overhead + two link-field widths)"). -/
def MINBLOCKSIZE : Nat := TAGS_SIZE + 2 * WORD_SIZE

/-- Largest value of the C `int` type. -/
def INT_MAX : Nat := 2 ^ 31 - 1

/-- Model of the C expression `(int) size < 0` for a 64-bit `size_t` value:
the low 32 bits, read as a two's-complement `int`, are negative. -/
def intCastNeg (n : Nat) : Bool := 2 ^ 31 ≤ n % 2 ^ 32

/-- `align` from mm.c line 17: rounds up to the nearest multiple of
`WORD_SIZE`.  The source masks the low bits
(`(size + (WORD_SIZE-1)) & ~(WORD_SIZE-1)`); on `Nat` this equals dropping
the remainder of `size + (WORD_SIZE - 1)` modulo `WORD_SIZE`. -/
def align (size : Nat) : Nat :=
  (size + (WORD_SIZE - 1)) - (size + (WORD_SIZE - 1)) % WORD_SIZE

/-- One heap block: header tag (`size`, `alloc`), footer tag
(`fsize`, `falloc`) — mirrored by every setter, compared by the checker —
and the payload words (`data`, one `Nat` per word; length
`size / WORD_SIZE - 2` in a consistent block).  Free blocks' payload words
are scratch (the embedded links are modelled separately, see the free-list
representation). -/
structure Block where
  size : Nat
  alloc : Bool
  fsize : Nat
  falloc : Bool
  data : List Nat
deriving DecidableEq, Repr

/-- The word value a boundary tag occupies in memory: the size with the
allocated bit in the low bits (sizes are multiples of `WORD_SIZE`). -/
def tagWord (sz : Nat) (a : Bool) : Nat := sz + (if a then 1 else 0)

/-- Modelled from the spec (§4.1): `block_set_allocated` — writes the
allocated bit into header and footer together. -/
def block_set_allocated (b : Block) (a : Bool) : Block :=
  { b with alloc := a, falloc := a }

/-- Physical merge of two adjacent blocks `x` (lower address) and `y`, as
performed by a `block_set_size`/`block_set_size_and_allocated` call on `x`
with the combined size: the new header is written at `x`, the new footer at
`y`'s old footer position, and the bytes in between — `x`'s old footer word
and `y`'s current header word — become payload words of the merged block. -/
def mergeBlocks (x y : Block) (a : Bool) : Block :=
  { size := x.size + y.size
    alloc := a
    fsize := x.size + y.size
    falloc := a
    data := x.data ++ [tagWord x.fsize x.falloc, tagWord y.size y.alloc] ++ y.data }

/-- Splitting a block `b` at offset `sz` (bytes), as performed by
`mm_break` (mm.c lines 56-63): the low part becomes an allocated block of
size `sz` (its new footer overwrites payload word `sz/8 - 2`; the next
word, `sz/8 - 1` of the old payload, is overwritten by the remainder's
header), the high part a free block holding the remaining payload words. -/
def breakBlock (b : Block) (sz : Nat) : Block × Block :=
  (⟨sz, true, sz, true, b.data.take (sz / WORD_SIZE - 2)⟩,
   ⟨b.size - sz, false, b.size - sz, false, b.data.drop (sz / WORD_SIZE)⟩)

/-- Allocator state: the physical block list (Prologue first, Epilogue
last), the free list as addresses in circular order from the anchor
(`flist_first` is the head), `_chunksize`, whether `mem_sbrk` will succeed
(`canGrow`), the committed heap size in bytes, the `_prologue` and
`_epilogue` globals as addresses, and an instrumentation log of the sizes
of all attempted growth calls (`growLog`). -/
structure AState where
  blocks : List Block
  flist : List Nat
  chunksize : Nat
  canGrow : Bool
  heapSize : Nat
  prologueAddr : Nat
  epilogueAddr : Nat
  growLog : List Nat
deriving DecidableEq, Repr

/-- Locate the block at byte address `a` (offset from the heap base),
walking the physical list by header sizes; returns the blocks before it,
the block itself, and the blocks after it.  `none` when `a` is not a block
boundary of the list. -/
def addrSplit : List Block → Nat → Option (List Block × Block × List Block)
  | [], _ => none
  | b :: rest, a =>
    if a = 0 then some ([], b, rest)
    else if a < b.size then none
    else (addrSplit rest (a - b.size)).map fun (p, x, q) => (b :: p, x, q)

/-- Sum of the header sizes of a block list (the byte extent it covers). -/
def sizeSum (bs : List Block) : Nat := (bs.map Block.size).sum

/-- Header size of the block at address `a`, when one is there. -/
def sizeAt (bs : List Block) (a : Nat) : Option Nat :=
  (addrSplit bs a).map fun (_, b, _) => b.size

/-- Header allocated bit of the block at address `a`, when one is there. -/
def allocAt (bs : List Block) (a : Nat) : Option Bool :=
  (addrSplit bs a).map fun (_, b, _) => b.alloc

/-- Payload words of the block at address `a`, when one is there. -/
def dataAt (bs : List Block) (a : Nat) : Option (List Nat) :=
  (addrSplit bs a).map fun (_, b, _) => b.data

/-- Modelled from the spec (§4.1): payload-to-block address conversion —
the payload starts one word (the header) after the block address.  A C
payload pointer below the heap base has no block; reading there is UB. -/
def payload_to_block (p : Nat) : Option Nat :=
  if p < WORD_SIZE then none else some (p - WORD_SIZE)

/-- Modelled from the spec (§4.2): `insert_free_block` — LIFO insertion:
the newly freed block becomes the anchor, so the most-recently-freed
memory is the first first-fit candidate. -/
def insert_free_block (fl : List Nat) (a : Nat) : List Nat := a :: fl

/-- Modelled from the spec (§4.2): `pull_free_block` — splices the block
out, patching neighbour links; removing the anchor advances the anchor to
its former successor (in the list representation, plain removal). -/
def pull_free_block (fl : List Nat) (a : Nat) : List Nat := fl.erase a

/-- Modelled from the spec (§4.2): `block_next_free` — the circular
successor of `a` in the free list. -/
def circNext (fl : List Nat) (a : Nat) : Option Nat :=
  match fl.indexOf? a with
  | none => none
  | some i => fl.get? ((i + 1) % fl.length)

/-- Modelled from the spec (§4.2): `block_prev_free` — the circular
predecessor of `a` in the free list. -/
def circPrev (fl : List Nat) (a : Nat) : Option Nat :=
  match fl.indexOf? a with
  | none => none
  | some i => fl.get? ((i + fl.length - 1) % fl.length)

/-- Result of an allocator-core call that returns a payload pointer:
`ok s p` — success, new state `s`, payload address `p`; `fail s` — the C
function returned `NULL` (or `-1` for `mm_extend_heap`); `ub` — undefined
behaviour (bad pointer arithmetic or a failed `assert`). -/
inductive MRes where
  | ok (s : AState) (p : Nat)
  | fail (s : AState)
  | ub
deriving DecidableEq, Repr

/-- `mm_init` (mm.c lines 99-112): resets the free list, `sbrk`s
`MINBLOCKSIZE` bytes and lays down a zero-payload Prologue immediately
followed by a zero-payload Epilogue.  `none` models the `-1` error return
when the growth primitive fails.  The `canGrow` argument fixes the
behaviour of `mem_sbrk` for the lifetime of the instance. -/
def mm_init (canGrow : Bool) : Option AState :=
  if canGrow then
    some { blocks := [⟨TAGS_SIZE, true, TAGS_SIZE, true, []⟩,
                      ⟨TAGS_SIZE, true, TAGS_SIZE, true, []⟩]
           flist := []
           chunksize := 1024
           canGrow := true
           heapSize := MINBLOCKSIZE
           prologueAddr := 0
           epilogueAddr := TAGS_SIZE
           growLog := [MINBLOCKSIZE] }
  else none

/-- `mm_extend_heap` (mm.c lines 71-92): asserts the size is non-negative
as an `int`, bumps it to `MINBLOCKSIZE`, aligns it, `sbrk`s that many
bytes (recorded in `growLog`; `MRes.fail` models the `-1` return when the
primitive fails, with no heap mutation), rewrites the old Epilogue into a
new free block of that size, inserts it into the free list, and writes a
fresh Epilogue after it.  The freshly grown region's payload words are
modelled as zeros (their C contents are unspecified and never read). -/
def mm_extend_heap (s : AState) (sizeArg : Nat) : MRes :=
  if intCastNeg sizeArg then MRes.ub
  else
    let size1 := if sizeArg < MINBLOCKSIZE then MINBLOCKSIZE else sizeArg
    let size2 := align size1
    if !s.canGrow then MRes.fail { s with growLog := s.growLog ++ [size2] }
    else
      match addrSplit s.blocks s.epilogueAddr with
      | some (pre, _, []) =>
        let ext : Block := ⟨size2, false, size2, false,
                            List.replicate (size2 / WORD_SIZE - 2) 0⟩
        MRes.ok { s with blocks := pre ++ [ext, ⟨TAGS_SIZE, true, TAGS_SIZE, true, []⟩]
                         flist := insert_free_block s.flist s.epilogueAddr
                         heapSize := s.heapSize + size2
                         epilogueAddr := s.epilogueAddr + size2
                         growLog := s.growLog ++ [size2] } s.epilogueAddr
      | _ => MRes.ub

/-- `mm_break` (mm.c lines 56-63): pulls the block at `a` from the free
list, shrinks it to `sz` bytes marked allocated, and inserts the carved
remainder into the free list as a free block.  Callers guarantee the
original block is at least `sz` bytes. -/
def mm_break (s : AState) (a sz : Nat) : Option AState :=
  match addrSplit s.blocks a with
  | none => none
  | some (pre, b, post) =>
    let parts := breakBlock b sz
    some { s with blocks := pre ++ parts.1 :: parts.2 :: post
                  flist := insert_free_block (pull_free_block s.flist a) (a + sz) }

/-- `mm_coalesce` (mm.c lines 28-46): reads the physical next and previous
neighbours, pulls the block from the free list, absorbs a free next
neighbour (pull it, grow the block over it), is absorbed into a free
previous neighbour (pull it, grow it over the block, the previous block —
the lower address — survives), and reinserts the one resulting block.
`none` models the UB of reading a neighbour outside the heap. -/
def mm_coalesce (s : AState) (a : Nat) : Option AState :=
  match addrSplit s.blocks a with
  | none => none
  | some (pre, b, post) =>
    match post, pre.getLast? with
    | next :: post1, some prevb =>
      let prevAddr := a - prevb.fsize
      let fl0 := pull_free_block s.flist a
      let step1 : Block × List Block × List Nat :=
        if !next.alloc then
          (mergeBlocks b next b.alloc, post1, pull_free_block fl0 (a + b.size))
        else (b, next :: post1, fl0)
      let step2 : List Block × Block × Nat × List Nat :=
        if !prevb.alloc then
          (pre.dropLast, mergeBlocks prevb step1.1 prevb.alloc, prevAddr,
           pull_free_block step1.2.2 prevAddr)
        else (pre, step1.1, a, step1.2.2)
      some { s with blocks := step2.1 ++ step2.2.1 :: step1.2.1
                    flist := insert_free_block step2.2.2.2 step2.2.2.1 }
    | _, _ => none

/-- The placement step of `mm_malloc` (mm.c lines 163-171): if the
candidate exceeds the required block size by at least
`8 * MINBLOCKSIZE`, split it with `mm_break`; otherwise pull the whole
candidate from the free list and mark it allocated.  Returns the payload
address.  Callers guarantee the candidate's size is at least `breq`, so
the `size_t` subtraction does not wrap. -/
def mm_malloc_place (s : AState) (a breq : Nat) : MRes :=
  match addrSplit s.blocks a with
  | none => MRes.ub
  | some (pre, b, post) =>
    if b.size - breq ≥ 8 * MINBLOCKSIZE then
      match mm_break s a breq with
      | none => MRes.ub
      | some s1 => MRes.ok s1 (a + WORD_SIZE)
    else
      MRes.ok { s with blocks := pre ++ block_set_allocated b true :: post
                       flist := pull_free_block s.flist a } (a + WORD_SIZE)

/-- The first-fit loop of `mm_malloc` (mm.c lines 145-155), walking the
circular free list once from the anchor: `some (some a)` — first block of
size at least `breq`; `some none` — the walk returned to the anchor with
no fit; `none` — a free-list entry is not a block (UB). -/
def findFit (bs : List Block) : List Nat → Nat → Option (Option Nat)
  | [], _ => some none
  | a :: rest, breq =>
    match sizeAt bs a with
    | none => none
    | some sz => if sz < breq then findFit bs rest breq else some (some a)

/-- `mm_malloc` (mm.c lines 120-172): rejects sizes that are negative as
an `int`; pads the payload request to `MINBLOCKSIZE`, aligns it, and adds
the tag overhead; first-fit searches the free list from the anchor; on an
empty list or an exhausted walk, extends the heap by the maximum of the
required block size and `_chunksize` and uses the extension; finally
splits or takes the candidate whole (`mm_malloc_place`). -/
def mm_malloc (s : AState) (size0 : Nat) : MRes :=
  if intCastNeg size0 then MRes.fail s
  else
    let size1 := if size0 < MINBLOCKSIZE then MINBLOCKSIZE else size0
    let size2 := align size1
    let breq := size2 + TAGS_SIZE
    let mx := if breq > s.chunksize then breq else s.chunksize
    match s.flist with
    | [] =>
      match mm_extend_heap s mx with
      | MRes.ok s1 a => mm_malloc_place s1 a breq
      | MRes.fail s1 => MRes.fail s1
      | MRes.ub => MRes.ub
    | _ :: _ =>
      match findFit s.blocks s.flist breq with
      | none => MRes.ub
      | some (some a) => mm_malloc_place s a breq
      | some none =>
        match mm_extend_heap s mx with
        | MRes.ok s1 a => mm_malloc_place s1 a breq
        | MRes.fail s1 => MRes.fail s1
        | MRes.ub => MRes.ub

/-- `mm_free` (mm.c lines 178-187): maps the payload to its block, asserts
it is allocated (`none` models the fatal assertion), clears the allocated
bit, inserts the block into the free list, and coalesces it with its free
neighbours. -/
def mm_free (s : AState) (p : Nat) : Option AState :=
  match payload_to_block p with
  | none => none
  | some a =>
    match addrSplit s.blocks a with
    | none => none
    | some (pre, b, post) =>
      if !b.alloc then none
      else
        mm_coalesce
          { s with blocks := pre ++ block_set_allocated b false :: post
                   flist := insert_free_block s.flist a } a

/-- The last-resort path of `mm_realloc` (mm.c lines 258-268): allocate a
fresh block of `size1` bytes, `memcpy` the first `cpy` bytes from the
current `ptr` into its payload, free the old block, and return the new
payload.  `cpy` is the pre-resize usable payload size computed at line
230. -/
def mm_realloc_fallback (s : AState) (ptrCur cpy size1 : Nat) : MRes :=
  match mm_malloc s size1 with
  | MRes.fail s1 => MRes.fail s1
  | MRes.ub => MRes.ub
  | MRes.ok s1 newp =>
    match payload_to_block newp, payload_to_block ptrCur with
    | some na, some sa =>
      match dataAt s1.blocks sa, addrSplit s1.blocks na with
      | some srcData, some (pre, nb, post) =>
        let nd := srcData.take (cpy / WORD_SIZE) ++ nb.data.drop (cpy / WORD_SIZE)
        match mm_free { s1 with blocks := pre ++ { nb with data := nd } :: post } ptrCur with
        | some s3 => MRes.ok s3 newp
        | none => MRes.ub
      | _, _ => MRes.ub
    | _, _ => MRes.ub

/-- The physical-previous phase of `mm_realloc` (mm.c lines 242-256) and
the fall-through to the last resort: when the block (at `a`, payload `p`)
is still too small and its previous neighbour is free, pull the neighbour
and merge into it (the lower address survives, allocated); if the merged
block now fits, `memmove` the `cpy` live bytes from `p` down to the merged
block's payload base and return that base; otherwise redirect `ptr` to the
merged block's base — without moving the live bytes — and fall through to
`mm_realloc_fallback`. -/
def mm_realloc_prev (s : AState) (a p cpy size1 : Nat) : MRes :=
  match addrSplit s.blocks a with
  | none => MRes.ub
  | some (pre, b, post) =>
    if b.size < size1 then
      match pre.getLast? with
      | none => MRes.ub
      | some prevb =>
        if !prevb.alloc then
          let prevAddr := a - prevb.fsize
          let m := mergeBlocks prevb b true
          let s2 := { s with blocks := pre.dropLast ++ m :: post
                             flist := pull_free_block s.flist prevAddr }
          if size1 ≤ m.size then
            let src := (m.data.drop (prevb.data.length + 2)).take (cpy / WORD_SIZE)
            MRes.ok { s2 with blocks :=
                        pre.dropLast ++ { m with data := src ++ m.data.drop (cpy / WORD_SIZE) } :: post }
                     (prevAddr + WORD_SIZE)
          else mm_realloc_fallback s2 (prevAddr + WORD_SIZE) cpy size1
        else mm_realloc_fallback s p cpy size1
    else mm_realloc_fallback s p cpy size1

/-- `mm_realloc` from line 209 on, after the null-pointer branch: size 0
frees the block and returns `NULL`; otherwise the request is rounded and
given tag overhead, and the block is returned unchanged if it already
fits, else grown over a free next neighbour (lines 231-238), then over a
free previous neighbour (`mm_realloc_prev`).  Reached with `ptr = none`
only through the fall-through bug of the null branch; the
`payload_to_block` on the null pointer is UB. -/
def mm_realloc_rest (s : AState) (ptr : Option Nat) (size0 : Nat) : MRes :=
  if size0 = 0 then
    match ptr with
    | none => MRes.ub
    | some p =>
      match mm_free s p with
      | some s1 => MRes.fail s1
      | none => MRes.ub
  else
    let size1 := align size0 + TAGS_SIZE
    match ptr with
    | none => MRes.ub
    | some p =>
      match payload_to_block p with
      | none => MRes.ub
      | some a =>
        match addrSplit s.blocks a with
        | none => MRes.ub
        | some (pre, b, post) =>
          if b.size ≥ size1 then MRes.ok s p
          else
            let cpy := b.size - TAGS_SIZE
            match post with
            | [] => MRes.ub
            | next :: post1 =>
              if !next.alloc then
                let b2 := mergeBlocks b next true
                let s2 := { s with blocks := pre ++ b2 :: post1
                                   flist := pull_free_block s.flist (a + b.size) }
                if size1 ≤ b2.size then MRes.ok s2 p
                else mm_realloc_prev s2 a p cpy size1
              else mm_realloc_prev s a p cpy size1

/-- `mm_realloc` (mm.c lines 194-273): rejects sizes negative as an
`int`; on a null `ptr` with size 0 returns `NULL`, and with a positive
size calls `mm_malloc` — but discards its result and falls through into
the body with `ptr` still null (the source has no `return` there); a
non-null `ptr` with size 0 frees the block; otherwise the in-place /
merge / copy logic of `mm_realloc_rest` runs. -/
def mm_realloc (s : AState) (ptr : Option Nat) (size0 : Nat) : MRes :=
  if intCastNeg size0 then MRes.fail s
  else
    match ptr with
    | none =>
      if size0 = 0 then MRes.fail s
      else
        match mm_malloc s size0 with
        | MRes.fail s1 => MRes.fail s1
        | MRes.ub => MRes.ub
        | MRes.ok s1 _ => mm_realloc_rest s1 none size0
    | some _ => mm_realloc_rest s ptr size0

/-- The diagnostic messages `mm_check_heap` prints before `exit(1)`; each
constructor stands for one of the format strings at mm.c lines 289-346. -/
inductive ChkMsg where
  | allocatedInFreeList
  | nextFreeNotFree
  | notCoalescedNext
  | notCoalescedPrev
  | prologueNotFirst
  | epilogueNotLast
  | outOfBounds
  | tagMismatch
deriving DecidableEq, Repr

/-- Result of `mm_check_heap`: `ok` — returned 0; `err a sz m` — printed
the offending block's address `a`, its size `sz` and the description `m`,
then `exit(1)`; `ub` — the checker itself read a dangling address. -/
inductive ChkRes where
  | ok
  | err (addr size : Nat) (msg : ChkMsg)
  | ub
deriving DecidableEq, Repr

/-- The free-list loop of `mm_check_heap` (mm.c lines 293-319) over the
entries after the anchor: each must be free, its free-list successor and
predecessor must be free, and its physical neighbours must be allocated
(else coalescing was missed). -/
def chkFreeLoop (bs : List Block) (fl : List Nat) : List Nat → ChkRes
  | [] => ChkRes.ok
  | a :: rest =>
    match addrSplit bs a with
    | none => ChkRes.ub
    | some (pre, b, post) =>
      if b.alloc then ChkRes.err a b.size ChkMsg.allocatedInFreeList
      else
        match circNext fl a, circPrev fl a with
        | some nf, some pf =>
          match allocAt bs nf, allocAt bs pf with
          | some nfa, some pfa =>
            if nfa then ChkRes.err a b.size ChkMsg.nextFreeNotFree
            else if pfa then ChkRes.err a b.size ChkMsg.nextFreeNotFree
            else
              match post.head?, pre.getLast? with
              | some nb, some pb =>
                if !nb.alloc then ChkRes.err a b.size ChkMsg.notCoalescedNext
                else if !pb.alloc then ChkRes.err a b.size ChkMsg.notCoalescedPrev
                else chkFreeLoop bs fl rest
              | _, _ => ChkRes.ub
          | _, _ => ChkRes.ub
        | _, _ => ChkRes.ub

/-- The physical walk of `mm_check_heap` (mm.c lines 331-343) from the
heap base towards the Epilogue address: every block on the way must lie
within the committed heap (`hi` is the last valid byte) and have matching
header and footer tags. -/
def chkHeapLoop (epiA hi : Nat) : List Block → Nat → ChkRes
  | [], addr => if addr = epiA then ChkRes.ok else ChkRes.ub
  | b :: rest, addr =>
    if addr = epiA then ChkRes.ok
    else if addr > hi then ChkRes.err addr b.size ChkMsg.outOfBounds
    else if b.size ≠ b.fsize || b.alloc ≠ b.falloc then
      ChkRes.err addr b.size ChkMsg.tagMismatch
    else chkHeapLoop epiA hi rest (addr + b.size)

/-- `mm_check_heap` (mm.c lines 282-349): with an empty free list it
returns 0 immediately; otherwise it checks the anchor is free, runs the
free-list loop, compares the heap's low bound with `_prologue` and the
position `heap_hi - (TAGS_SIZE - 1)` with `_epilogue`, walks the physical
blocks up to the Epilogue checking bounds and tag agreement, and finally
checks the Epilogue is in bounds. -/
def mm_check_heap (s : AState) : ChkRes :=
  match s.flist with
  | [] => ChkRes.ok
  | first :: rest =>
    match allocAt s.blocks first, sizeAt s.blocks first with
    | some fa, some fs =>
      if fa then ChkRes.err first fs ChkMsg.allocatedInFreeList
      else
        match chkFreeLoop s.blocks s.flist rest with
        | ChkRes.ok =>
          if 0 ≠ s.prologueAddr then
            ChkRes.err s.prologueAddr ((sizeAt s.blocks s.prologueAddr).getD 0)
              ChkMsg.prologueNotFirst
          else if s.heapSize - TAGS_SIZE ≠ s.epilogueAddr then
            ChkRes.err s.epilogueAddr ((sizeAt s.blocks s.epilogueAddr).getD 0)
              ChkMsg.epilogueNotLast
          else
            match chkHeapLoop s.epilogueAddr (s.heapSize - 1) s.blocks 0 with
            | ChkRes.ok =>
              if s.epilogueAddr > s.heapSize - 1 then
                ChkRes.err s.epilogueAddr ((sizeAt s.blocks s.epilogueAddr).getD 0)
                  ChkMsg.outOfBounds
              else ChkRes.ok
            | r => r
        | r => r
    | _, _ => ChkRes.ub

/-- Of two physically adjacent blocks, at least one is allocated. -/
abbrev allocRel (x y : Block) : Prop := x.alloc = true ∨ y.alloc = true

/-- Invariant I2 of the spec: no two physically adjacent blocks are both
free. -/
def noAdjFree (bs : List Block) : Prop :=
  List.Chain' allocRel bs

instance noAdjFreeDec : (bs : List Block) → Decidable (noAdjFree bs)
  | [] => isTrue List.chain'_nil
  | [_] => isTrue (List.chain'_singleton _)
  | x :: y :: rest =>
    match noAdjFreeDec (y :: rest) with
    | isTrue h =>
      if hxy : x.alloc = true ∨ y.alloc = true then
        isTrue (List.chain'_cons.mpr ⟨hxy, h⟩)
      else isFalse fun hc => hxy (List.chain'_cons.mp hc).1
    | isFalse h => isFalse fun hc => h (List.chain'_cons.mp hc).2

/-- Well-formed allocator state: every block has a positive, word-aligned
size of at least the tag overhead with mirrored tags; the last block (the
Epilogue) is allocated; no two adjacent blocks are free (I2); the free
list holds distinct addresses of free blocks (I3/I4 restricted to what the
proofs need); and the `_epilogue`/`heapSize`/`_prologue` bookkeeping
matches the block list.  `_chunksize` is a word multiple (it is only ever
1024). -/
abbrev WF (s : AState) : Prop :=
  (∀ b ∈ s.blocks, 0 < b.size ∧ b.fsize = b.size ∧ b.falloc = b.alloc ∧
      WORD_SIZE ∣ b.size ∧ TAGS_SIZE ≤ b.size) ∧
  s.blocks.getLast?.map Block.alloc = some true ∧
  noAdjFree s.blocks ∧
  (∀ a ∈ s.flist, allocAt s.blocks a = some false) ∧
  s.flist.Nodup ∧
  s.epilogueAddr = sizeSum s.blocks.dropLast ∧
  s.heapSize = sizeSum s.blocks ∧
  s.prologueAddr = 0 ∧
  WORD_SIZE ∣ s.chunksize ∧ s.chunksize < 2 ^ 31

/-- Usable payload size of the block whose payload starts at `p`. -/
def usableAt (s : AState) (p : Nat) : Option Nat :=
  match payload_to_block p with
  | none => none
  | some a => (sizeAt s.blocks a).map (· - TAGS_SIZE)

/-- First `n` payload words at the payload address returned by an
allocator call, when it succeeded. -/
def resPayloadTake (r : MRes) (n : Nat) : Option (List Nat) :=
  match r with
  | MRes.ok s p =>
    match payload_to_block p with
    | some a => (dataAt s.blocks a).map (List.take n)
    | none => none
  | _ => none

/-- Written from claim C8's words, for the refinement comparison with
`mm_check_heap`: the walk over the physical blocks strictly before the
Epilogue, requiring each to start within the committed heap (`hi` is the
last valid byte) and to have matching header and footer. -/
def specWalk (hi : Nat) : List Block → Nat → Bool
  | [], _ => true
  | b :: rest, addr =>
    decide (addr ≤ hi) && (b.fsize == b.size) && (b.falloc == b.alloc) &&
      specWalk hi rest (addr + b.size)

/-- Written from claim C8's words: the heap's low bound is the Prologue,
its high bound is the Epilogue, every physical block from Prologue to
Epilogue is in bounds with matching header and footer, and the Epilogue is
in bounds. -/
def specHeapChecks (s : AState) : Bool :=
  (s.prologueAddr == 0) && (s.epilogueAddr == s.heapSize - TAGS_SIZE) &&
    specWalk (s.heapSize - 1) s.blocks.dropLast 0 &&
    decide (s.epilogueAddr ≤ s.heapSize - 1)

/-- A zero-payload allocated sentinel block (Prologue/Epilogue layout). -/
def sentinelB : Block := ⟨TAGS_SIZE, true, TAGS_SIZE, true, []⟩

/-- The state `mm_init` produces when the growth primitive cooperates. -/
def initState : AState :=
  { blocks := [sentinelB, sentinelB]
    flist := []
    chunksize := 1024
    canGrow := true
    heapSize := MINBLOCKSIZE
    prologueAddr := 0
    epilogueAddr := TAGS_SIZE
    growLog := [MINBLOCKSIZE] }

/-- Heap for the C2 counterexample: Prologue; a 32-byte free block
(scratch payload words 0, 0); a 32-byte allocated block holding the live
words 111, 222 at payload address 56; a 32-byte allocated guard block; Epilogue.  The free block is the only free-list entry. -/
def c2S : AState :=
  { blocks := [sentinelB,
               ⟨32, false, 32, false, [0, 0]⟩,
               ⟨32, true, 32, true, [111, 222]⟩,
               ⟨32, true, 32, true, [7, 8]⟩,
               sentinelB]
    flist := [16]
    chunksize := 1024
    canGrow := true
    heapSize := 128
    prologueAddr := 0
    epilogueAddr := 112
    growLog := [] }

/-- Heap with one 32-byte allocated block (payload words 5, 6) at payload
address 24 and nothing else. -/
def oneAllocS : AState :=
  { blocks := [sentinelB, ⟨32, true, 32, true, [5, 6]⟩, sentinelB]
    flist := []
    chunksize := 1024
    canGrow := true
    heapSize := 64
    prologueAddr := 0
    epilogueAddr := 48
    growLog := [] }

/-- Heap with one free block on the free list and one allocated block:
used to exercise the non-empty-free-list path of the checker. -/
def oneFreeS : AState :=
  { blocks := [sentinelB,
               ⟨32, false, 32, false, [0, 0]⟩,
               ⟨32, true, 32, true, [3, 4]⟩,
               sentinelB]
    flist := [16]
    chunksize := 1024
    canGrow := true
    heapSize := 96
    prologueAddr := 0
    epilogueAddr := 80
    growLog := [] }

/-- A corrupt heap: the interior block's footer size (24) disagrees with
its header size (32), but the free list is empty. -/
def tagMismatchS : AState :=
  { blocks := [sentinelB, ⟨32, true, 24, true, [1, 2]⟩, sentinelB]
    flist := []
    chunksize := 1024
    canGrow := true
    heapSize := 64
    prologueAddr := 0
    epilogueAddr := 48
    growLog := [] }

/-- The required block size `mm_malloc` computes for a payload request
(mm.c lines 127-131): pad the payload to `MINBLOCKSIZE`, align, add the
tag overhead. -/
def blockReq (n : Nat) : Nat :=
  align (if n < MINBLOCKSIZE then MINBLOCKSIZE else n) + TAGS_SIZE

/-- The byte count `mm_extend_heap` actually grows the heap by for a
request of `n` bytes (mm.c lines 74-77): pad to `MINBLOCKSIZE`, align. -/
def extSize (n : Nat) : Nat :=
  align (if n < MINBLOCKSIZE then MINBLOCKSIZE else n)

/-- The state `mm_free oneAllocS 24` produces: the block is free again and
back on the free list, its neighbours (the sentinels) being allocated. -/
def freedS : AState :=
  { blocks := [sentinelB, ⟨32, false, 32, false, [5, 6]⟩, sentinelB]
    flist := [16]
    chunksize := 1024
    canGrow := true
    heapSize := 64
    prologueAddr := 0
    epilogueAddr := 48
    growLog := [] }

/-- Heap with one large (560-byte) free block, big enough to force the
splitting branch of `mm_malloc`. -/
def bigFreeS : AState :=
  { blocks := [sentinelB, ⟨560, false, 560, false, List.replicate 68 0⟩, sentinelB]
    flist := [16]
    chunksize := 1024
    canGrow := true
    heapSize := 592
    prologueAddr := 0
    epilogueAddr := 576
    growLog := [] }

/-- `oneAllocS` with a growth primitive that refuses all requests. -/
def noGrowS : AState :=
  { blocks := [sentinelB, ⟨32, true, 32, true, [5, 6]⟩, sentinelB]
    flist := []
    chunksize := 1024
    canGrow := false
    heapSize := 64
    prologueAddr := 0
    epilogueAddr := 48
    growLog := [] }

/-- The state `mm_malloc initState 5` produces: one 1024-byte extension,
split into a 48-byte allocated block and a 976-byte free remainder. -/
def mallocedS : AState :=
  { blocks := [sentinelB, ⟨48, true, 48, true, [0, 0, 0, 0]⟩,
               ⟨976, false, 976, false, List.replicate 120 0⟩, sentinelB]
    flist := [64]
    chunksize := 1024
    canGrow := true
    heapSize := 1056
    prologueAddr := 0
    epilogueAddr := 1040
    growLog := [32, 1024] }

theorem align_ge (n : Nat) : n ≤ align n := by
  simp only [align, WORD_SIZE]
  have h : (n + 7) % 8 < 8 := Nat.mod_lt _ (by omega)
  omega

theorem align_dvd (n : Nat) : WORD_SIZE ∣ align n := by
  refine ⟨(n + 7) / 8, ?_⟩
  simp only [align, WORD_SIZE]
  have h := Nat.div_add_mod (n + 7) 8
  omega

theorem align_le {n m : Nat} (h1 : n ≤ m) (h2 : WORD_SIZE ∣ m) : align n ≤ m := by
  obtain ⟨c, rfl⟩ := h2
  simp only [align, WORD_SIZE] at *
  omega

theorem align_of_dvd {n : Nat} (h : WORD_SIZE ∣ n) : align n = n := by
  obtain ⟨c, rfl⟩ := h
  simp only [align, WORD_SIZE]
  omega

theorem addrSplit_eq_append {bs : List Block} {a : Nat} {pre : List Block}
    {b : Block} {post : List Block}
    (h : addrSplit bs a = some (pre, b, post)) : bs = pre ++ b :: post := by
  induction bs generalizing a pre with
  | nil => simp [addrSplit] at h
  | cons x rest ih =>
    unfold addrSplit at h
    split at h
    · simp only [Option.some.injEq, Prod.mk.injEq] at h
      obtain ⟨rfl, rfl, rfl⟩ := h
      rfl
    · split at h
      · simp at h
      · cases hrec : addrSplit rest (a - x.size) with
        | none => rw [hrec] at h; simp at h
        | some t =>
          obtain ⟨p1, b1, q1⟩ := t
          rw [hrec] at h
          simp only [Option.map_some', Option.some.injEq, Prod.mk.injEq] at h
          obtain ⟨rfl, rfl, rfl⟩ := h
          simpa using congrArg (x :: ·) (ih hrec)

theorem addrSplit_replace {bs : List Block} {a : Nat} {pre : List Block}
    {b : Block} {post : List Block}
    (h : addrSplit bs a = some (pre, b, post)) (b' : Block) (post' : List Block) :
    addrSplit (pre ++ b' :: post') a = some (pre, b', post') := by
  induction bs generalizing a pre with
  | nil => simp [addrSplit] at h
  | cons x rest ih =>
    unfold addrSplit at h
    split at h
    · simp only [Option.some.injEq, Prod.mk.injEq] at h
      obtain ⟨rfl, rfl, rfl⟩ := h
      simp [addrSplit, *]
    · split at h
      · simp at h
      · cases hrec : addrSplit rest (a - x.size) with
        | none => rw [hrec] at h; simp at h
        | some t =>
          obtain ⟨p1, b1, q1⟩ := t
          rw [hrec] at h
          simp only [Option.map_some', Option.some.injEq, Prod.mk.injEq] at h
          obtain ⟨rfl, rfl, rfl⟩ := h
          have hrec' := ih hrec
          unfold addrSplit
          simp only [List.cons_append]
          rw [if_neg (by assumption), if_neg (by assumption), hrec']
          rfl

theorem addrSplit_of_append (pre : List Block) (b : Block) (post : List Block)
    (hpos : ∀ x ∈ pre, 0 < x.size) :
    addrSplit (pre ++ b :: post) (sizeSum pre) = some (pre, b, post) := by
  induction pre with
  | nil => simp [addrSplit, sizeSum]
  | cons x p ih =>
    have hx : 0 < x.size := hpos x (by simp)
    have hs : sizeSum (x :: p) = x.size + sizeSum p := by
      simp [sizeSum]
    unfold addrSplit
    simp only [List.cons_append]
    rw [hs, if_neg (by omega), if_neg (by omega)]
    have : x.size + sizeSum p - x.size = sizeSum p := by omega
    rw [this, ih (fun y hy => hpos y (by simp [hy]))]
    rfl

theorem chain'_parts {α : Type} {R : α → α → Prop} {pre : List α} {b : α}
    {post : List α} (h : List.Chain' R (pre ++ b :: post)) :
    List.Chain' R pre ∧ List.Chain' R post ∧
      (∀ x ∈ pre.getLast?, R x b) ∧ (∀ y ∈ post.head?, R b y) := by
  rw [List.chain'_append] at h
  obtain ⟨h1, h2, h3⟩ := h
  rw [List.chain'_cons'] at h2
  exact ⟨h1, h2.2, fun x hx => h3 x hx b rfl, h2.1⟩

theorem chain'_rebuild {α : Type} {R : α → α → Prop} {pre : List α} {b : α}
    {post : List α} (h1 : List.Chain' R pre) (h2 : List.Chain' R post)
    (h3 : ∀ x ∈ pre.getLast?, R x b) (h4 : ∀ y ∈ post.head?, R b y) :
    List.Chain' R (pre ++ b :: post) := by
  rw [List.chain'_append]
  refine ⟨h1, List.chain'_cons'.mpr ⟨h4, h2⟩, ?_⟩
  intro x hx y hy
  have hb : y = b := by
    simp only [List.head?_cons, Option.mem_def, Option.some.injEq] at hy
    exact hy.symm
  subst hb
  exact h3 x hx

theorem dropLast_last_alloc {pre : List Block} {prevb : Block}
    (hc : List.Chain' allocRel pre) (hl : pre.getLast? = some prevb)
    (hf : prevb.alloc = false) :
    ∀ x ∈ pre.dropLast.getLast?, x.alloc = true := by
  have hdecomp : pre.dropLast ++ [prevb] = pre :=
    List.dropLast_append_getLast? prevb (Option.mem_def.mpr hl)
  rw [← hdecomp] at hc
  have hparts := @chain'_parts _ _ _ _ [] hc
  intro x hx
  rcases hparts.2.2.1 x hx with h | h
  · exact h
  · rw [hf] at h; exact absurd h (by simp)

theorem mm_coalesce_eq_aa {s : AState} {a : Nat} {pre : List Block} {b next : Block}
    {post1 : List Block} {prevb : Block}
    (hsplit : addrSplit s.blocks a = some (pre, b, next :: post1))
    (hl : pre.getLast? = some prevb)
    (hn : next.alloc = true) (hp : prevb.alloc = true) :
    mm_coalesce s a = some
      { s with blocks := pre ++ b :: next :: post1
               flist := a :: s.flist.erase a } := by
  unfold mm_coalesce
  rw [hsplit]
  dsimp only
  rw [hl]
  simp [hn, hp, insert_free_block, pull_free_block]

theorem mm_coalesce_eq_fa {s : AState} {a : Nat} {pre : List Block} {b next : Block}
    {post1 : List Block} {prevb : Block}
    (hsplit : addrSplit s.blocks a = some (pre, b, next :: post1))
    (hl : pre.getLast? = some prevb)
    (hn : next.alloc = false) (hp : prevb.alloc = true) :
    mm_coalesce s a = some
      { s with blocks := pre ++ mergeBlocks b next b.alloc :: post1
               flist := a :: ((s.flist.erase a).erase (a + b.size)) } := by
  unfold mm_coalesce
  rw [hsplit]
  dsimp only
  rw [hl]
  simp [hn, hp, insert_free_block, pull_free_block]

theorem mm_coalesce_eq_af {s : AState} {a : Nat} {pre : List Block} {b next : Block}
    {post1 : List Block} {prevb : Block}
    (hsplit : addrSplit s.blocks a = some (pre, b, next :: post1))
    (hl : pre.getLast? = some prevb)
    (hn : next.alloc = true) (hp : prevb.alloc = false) :
    mm_coalesce s a = some
      { s with blocks := pre.dropLast ++ mergeBlocks prevb b prevb.alloc :: next :: post1
               flist := (a - prevb.fsize) :: ((s.flist.erase a).erase (a - prevb.fsize)) } := by
  unfold mm_coalesce
  rw [hsplit]
  dsimp only
  rw [hl]
  simp [hn, hp, insert_free_block, pull_free_block]

theorem mm_coalesce_eq_ff {s : AState} {a : Nat} {pre : List Block} {b next : Block}
    {post1 : List Block} {prevb : Block}
    (hsplit : addrSplit s.blocks a = some (pre, b, next :: post1))
    (hl : pre.getLast? = some prevb)
    (hn : next.alloc = false) (hp : prevb.alloc = false) :
    mm_coalesce s a = some
      { s with blocks :=
                 pre.dropLast ++
                   mergeBlocks prevb (mergeBlocks b next b.alloc) prevb.alloc :: post1
               flist := (a - prevb.fsize) ::
                 (((s.flist.erase a).erase (a + b.size)).erase (a - prevb.fsize)) } := by
  unfold mm_coalesce
  rw [hsplit]
  dsimp only
  rw [hl]
  simp [hn, hp, insert_free_block, pull_free_block]

theorem coalesce_noAdjFree {s : AState} {a : Nat} {pre : List Block} {b : Block}
    {post : List Block} {s' : AState}
    (hsplit : addrSplit s.blocks a = some (pre, b, post))
    (hpre : List.Chain' allocRel pre) (hpost : List.Chain' allocRel post)
    (hco : mm_coalesce s a = some s') : noAdjFree s'.blocks := by
  cases post with
  | nil =>
    unfold mm_coalesce at hco
    rw [hsplit] at hco
    simp at hco
  | cons next post1 =>
    cases hl : pre.getLast? with
    | none =>
      unfold mm_coalesce at hco
      rw [hsplit] at hco
      dsimp only at hco
      rw [hl] at hco
      simp at hco
    | some prevb =>
      rw [List.chain'_cons'] at hpost
      obtain ⟨hnextrel, hpost1⟩ := hpost
      have hlastalloc : prevb.alloc = true → ∀ x ∈ pre.getLast?, x.alloc = true := by
        intro hp x hx
        rw [hl] at hx
        simp only [Option.mem_def, Option.some.injEq] at hx
        exact hx ▸ hp
      by_cases hn : next.alloc = true <;> by_cases hp : prevb.alloc = true
      · rw [mm_coalesce_eq_aa hsplit hl hn hp] at hco
        obtain rfl : _ = s' := Option.some.inj hco
        exact chain'_rebuild hpre (List.chain'_cons'.mpr ⟨hnextrel, hpost1⟩)
          (fun x hx => Or.inl (hlastalloc hp x hx))
          (fun y hy => Or.inr (by
            simp only [List.head?_cons, Option.mem_def, Option.some.injEq] at hy
            rw [← hy]; exact hn))
      · rw [Bool.not_eq_true] at hp
        rw [mm_coalesce_eq_af hsplit hl hn hp] at hco
        obtain rfl : _ = s' := Option.some.inj hco
        refine chain'_rebuild ?_ (List.chain'_cons'.mpr ⟨hnextrel, hpost1⟩) ?_ ?_
        · have hdecomp : pre.dropLast ++ [prevb] = pre :=
            List.dropLast_append_getLast? prevb (Option.mem_def.mpr hl)
          conv at hpre => rw [← hdecomp]
          exact (@chain'_parts _ _ _ _ [] hpre).1
        · intro x hx
          exact Or.inl (dropLast_last_alloc hpre hl hp x hx)
        · intro y hy
          refine Or.inr ?_
          simp only [List.head?_cons, Option.mem_def, Option.some.injEq] at hy
          rw [← hy]; exact hn
      · rw [Bool.not_eq_true] at hn
        rw [mm_coalesce_eq_fa hsplit hl hn hp] at hco
        obtain rfl : _ = s' := Option.some.inj hco
        refine chain'_rebuild hpre hpost1 ?_ ?_
        · intro x hx
          exact Or.inl (hlastalloc hp x hx)
        · intro y hy
          refine Or.inr ?_
          rcases hnextrel y hy with h | h
          · rw [hn] at h; exact absurd h (by simp)
          · exact h
      · rw [Bool.not_eq_true] at hn hp
        rw [mm_coalesce_eq_ff hsplit hl hn hp] at hco
        obtain rfl : _ = s' := Option.some.inj hco
        refine chain'_rebuild ?_ hpost1 ?_ ?_
        · have hdecomp : pre.dropLast ++ [prevb] = pre :=
            List.dropLast_append_getLast? prevb (Option.mem_def.mpr hl)
          conv at hpre => rw [← hdecomp]
          exact (@chain'_parts _ _ _ _ [] hpre).1
        · intro x hx
          exact Or.inl (dropLast_last_alloc hpre hl hp x hx)
        · intro y hy
          refine Or.inr ?_
          rcases hnextrel y hy with h | h
          · rw [hn] at h; exact absurd h (by simp)
          · exact h

theorem free_noAdjFree {s : AState} {p : Nat} {s' : AState}
    (hWF : WF s) (h : mm_free s p = some s') : noAdjFree s'.blocks := by
  unfold mm_free at h
  cases hp : payload_to_block p with
  | none => rw [hp] at h; simp at h
  | some a =>
    rw [hp] at h
    dsimp only at h
    cases hsplit : addrSplit s.blocks a with
    | none => rw [hsplit] at h; simp at h
    | some t =>
      obtain ⟨pre, b, post⟩ := t
      rw [hsplit] at h
      dsimp only at h
      by_cases hb : b.alloc = true
      · rw [hb] at h
        simp only [Bool.not_true, if_false, Bool.false_eq_true] at h
        have hnoadj := hWF.2.2.1
        rw [noAdjFree, addrSplit_eq_append hsplit] at hnoadj
        have hparts := chain'_parts hnoadj
        exact coalesce_noAdjFree
          (addrSplit_replace hsplit (block_set_allocated b false) post)
          hparts.1 hparts.2.1 h
      · rw [Bool.not_eq_true] at hb
        rw [hb] at h
        simp at h

theorem mm_malloc_place_eq {s : AState} {a : Nat} {pre : List Block} {b : Block}
    {post : List Block} (breq : Nat)
    (h : addrSplit s.blocks a = some (pre, b, post)) :
    mm_malloc_place s a breq =
      if b.size - breq ≥ 8 * MINBLOCKSIZE then
        MRes.ok { s with
            blocks := pre ++ (breakBlock b breq).1 :: (breakBlock b breq).2 :: post
            flist := (a + breq) :: s.flist.erase a } (a + WORD_SIZE)
      else
        MRes.ok { s with blocks := pre ++ block_set_allocated b true :: post
                         flist := s.flist.erase a } (a + WORD_SIZE) := by
  unfold mm_malloc_place
  rw [h]
  dsimp only
  split_ifs with hc
  · unfold mm_break
    rw [h]
    dsimp only [insert_free_block, pull_free_block]
  · dsimp only [insert_free_block, pull_free_block]

theorem place_noAdjFree {s : AState} {a breq : Nat} {pre : List Block} {b : Block}
    {post : List Block} {s' : AState} {q : Nat}
    (h : addrSplit s.blocks a = some (pre, b, post))
    (hpre : List.Chain' allocRel pre) (hpost : List.Chain' allocRel post)
    (hhead : ∀ y ∈ post.head?, y.alloc = true)
    (hres : mm_malloc_place s a breq = MRes.ok s' q) : noAdjFree s'.blocks := by
  rw [mm_malloc_place_eq breq h] at hres
  split_ifs at hres with hc
  · injection hres with h1 h2
    subst h1
    refine chain'_rebuild hpre ?_ (fun x _ => Or.inr rfl) (fun y hy => Or.inl rfl)
    refine List.chain'_cons'.mpr ⟨fun y hy => Or.inr (hhead y hy), hpost⟩
  · injection hres with h1 h2
    subst h1
    exact chain'_rebuild hpre hpost (fun x _ => Or.inr rfl) (fun y _ => Or.inl rfl)

theorem WF_epilogue_split {s : AState} (hWF : WF s) :
    ∃ epi, s.blocks = s.blocks.dropLast ++ [epi] ∧ epi.alloc = true ∧
      addrSplit s.blocks s.epilogueAddr = some (s.blocks.dropLast, epi, []) := by
  obtain ⟨hblk, hlastA, -, -, -, hepiA, -⟩ := hWF
  cases hgl : s.blocks.getLast? with
  | none => rw [hgl] at hlastA; simp at hlastA
  | some epi =>
    rw [hgl] at hlastA
    have hal : epi.alloc = true := by simpa using hlastA
    have hdecomp : s.blocks.dropLast ++ [epi] = s.blocks :=
      List.dropLast_append_getLast? epi (Option.mem_def.mpr hgl)
    refine ⟨epi, hdecomp.symm, hal, ?_⟩
    have hpos : ∀ x ∈ s.blocks.dropLast, 0 < x.size := fun x hx =>
      (hblk x (by rw [← hdecomp]; exact List.mem_append_left _ hx)).1
    have hsp := addrSplit_of_append s.blocks.dropLast epi [] hpos
    rw [hdecomp] at hsp
    rw [hepiA]
    exact hsp

theorem mm_extend_heap_eq {s : AState} {n : Nat} {front : List Block} {epi : Block}
    (hneg : intCastNeg n = false) (hg : s.canGrow = true)
    (hsplit : addrSplit s.blocks s.epilogueAddr = some (front, epi, [])) :
    mm_extend_heap s n = MRes.ok
      { s with
          blocks := front ++
            [⟨extSize n, false, extSize n, false,
              List.replicate (extSize n / WORD_SIZE - 2) 0⟩, sentinelB]
          flist := s.epilogueAddr :: s.flist
          heapSize := s.heapSize + extSize n
          epilogueAddr := s.epilogueAddr + extSize n
          growLog := s.growLog ++ [extSize n] } s.epilogueAddr := by
  unfold mm_extend_heap
  rw [hneg, hg]
  dsimp only
  rw [hsplit]
  rfl

theorem findFit_app {bs : List Block} {l1 : List Nat} {a : Nat} (l2 : List Nat)
    {breq sza : Nat}
    (h1 : ∀ x ∈ l1, ∃ szx, sizeAt bs x = some szx ∧ szx < breq)
    (h2 : sizeAt bs a = some sza) (h3 : breq ≤ sza) :
    findFit bs (l1 ++ a :: l2) breq = some (some a) := by
  induction l1 with
  | nil =>
    simp only [List.nil_append]
    unfold findFit
    rw [h2]
    dsimp only
    rw [if_neg (by omega)]
  | cons x t ih =>
    obtain ⟨szx, hx, hlt⟩ := h1 x (List.mem_cons_self x t)
    simp only [List.cons_append]
    unfold findFit
    rw [hx]
    dsimp only
    rw [if_pos hlt]
    exact ih fun y hy => h1 y (List.mem_cons_of_mem x hy)

theorem findFit_exhaust {bs : List Block} {fl : List Nat} {breq : Nat}
    (h : ∀ x ∈ fl, ∃ szx, sizeAt bs x = some szx ∧ szx < breq) :
    findFit bs fl breq = some none := by
  induction fl with
  | nil => rfl
  | cons x t ih =>
    obtain ⟨szx, hx, hlt⟩ := h x (List.mem_cons_self x t)
    unfold findFit
    rw [hx]
    dsimp only
    rw [if_pos hlt]
    exact ih fun y hy => h y (List.mem_cons_of_mem x hy)

theorem findFit_sound {bs : List Block} {fl : List Nat} {breq a : Nat}
    (h : findFit bs fl breq = some (some a)) :
    a ∈ fl ∧ ∃ pre b post, addrSplit bs a = some (pre, b, post) ∧ breq ≤ b.size := by
  induction fl with
  | nil => simp [findFit] at h
  | cons x t ih =>
    unfold findFit at h
    cases hx : sizeAt bs x with
    | none => rw [hx] at h; simp at h
    | some szx =>
      rw [hx] at h
      dsimp only at h
      split_ifs at h with hlt
      · obtain ⟨hmem, rest⟩ := ih h
        exact ⟨List.mem_cons_of_mem x hmem, rest⟩
      · obtain rfl : x = a := by simpa using h
        refine ⟨List.mem_cons_self x t, ?_⟩
        unfold sizeAt at hx
        cases hsp : addrSplit bs x with
        | none => rw [hsp] at hx; simp at hx
        | some u =>
          obtain ⟨pre, b, post⟩ := u
          rw [hsp] at hx
          simp only [Option.map_some', Option.some.injEq] at hx
          exact ⟨pre, b, post, rfl, by omega⟩

theorem findFit_total {bs : List Block} {fl : List Nat} {breq : Nat}
    (h : ∀ x ∈ fl, (sizeAt bs x).isSome) : ∃ o, findFit bs fl breq = some o := by
  induction fl with
  | nil => exact ⟨none, rfl⟩
  | cons x t ih =>
    cases hx : sizeAt bs x with
    | none =>
      have := h x (List.mem_cons_self x t)
      rw [hx] at this
      simp at this
    | some szx =>
      unfold findFit
      rw [hx]
      dsimp only
      split_ifs
      · exact ih fun y hy => h y (List.mem_cons_of_mem x hy)
      · exact ⟨some x, rfl⟩

theorem mm_malloc_eq_found {s : AState} {n a : Nat}
    (hneg : intCastNeg n = false) (hfl : s.flist ≠ [])
    (hfind : findFit s.blocks s.flist (blockReq n) = some (some a)) :
    mm_malloc s n = mm_malloc_place s a (blockReq n) := by
  unfold blockReq at hfind ⊢
  unfold mm_malloc
  rw [hneg, if_neg Bool.false_ne_true]
  cases hfl' : s.flist with
  | nil => exact absurd hfl' hfl
  | cons x t =>
    rw [hfl'] at hfind
    dsimp only
    rw [hfind]

theorem mm_malloc_eq_extend {s : AState} {n : Nat}
    (hneg : intCastNeg n = false)
    (hfind : s.flist = [] ∨ findFit s.blocks s.flist (blockReq n) = some none) :
    mm_malloc s n =
      (match mm_extend_heap s
          (if blockReq n > s.chunksize then blockReq n else s.chunksize) with
        | MRes.ok s1 a => mm_malloc_place s1 a (blockReq n)
        | MRes.fail s1 => MRes.fail s1
        | MRes.ub => MRes.ub) := by
  unfold blockReq at hfind ⊢
  unfold mm_malloc
  rw [hneg, if_neg Bool.false_ne_true]
  rcases hfind with hfl | hfind
  · rw [hfl]
  · cases hfl' : s.flist with
    | nil => rfl
    | cons x t =>
      rw [hfl'] at hfind
      dsimp only
      rw [hfind]

theorem extend_place_noAdjFree {s : AState} {mx breq : Nat} {s' : AState} {q : Nat}
    (hWF : WF s)
    (h : (match mm_extend_heap s mx with
          | MRes.ok s1 a => mm_malloc_place s1 a breq
          | MRes.fail s1 => MRes.fail s1
          | MRes.ub => MRes.ub) = MRes.ok s' q) : noAdjFree s'.blocks := by
  by_cases hnegm : intCastNeg mx = true
  · unfold mm_extend_heap at h
    rw [hnegm] at h
    simp at h
  · rw [Bool.not_eq_true] at hnegm
    by_cases hg : s.canGrow = true
    · obtain ⟨epi, hdecomp, hepial, hsplitE⟩ := WF_epilogue_split hWF
      rw [mm_extend_heap_eq hnegm hg hsplitE] at h
      dsimp only at h
      have hpos : ∀ x ∈ s.blocks.dropLast, 0 < x.size := fun x hx =>
        (hWF.1 x (by rw [hdecomp]; exact List.mem_append_left _ hx)).1
      have hsplit1 : addrSplit
          (s.blocks.dropLast ++
            [⟨extSize mx, false, extSize mx, false,
              List.replicate (extSize mx / WORD_SIZE - 2) 0⟩, sentinelB])
          s.epilogueAddr = some (s.blocks.dropLast,
            ⟨extSize mx, false, extSize mx, false,
              List.replicate (extSize mx / WORD_SIZE - 2) 0⟩, [sentinelB]) := by
        rw [hWF.2.2.2.2.2.1]
        exact addrSplit_of_append _ _ _ hpos
      have hprechain : List.Chain' allocRel s.blocks.dropLast := by
        have hnoadj := hWF.2.2.1
        rw [noAdjFree] at hnoadj
        conv at hnoadj => rw [hdecomp]
        exact (@chain'_parts _ _ _ _ [] hnoadj).1
      exact place_noAdjFree hsplit1 hprechain (List.chain'_singleton _)
        (fun y hy => by
          simp only [List.head?_cons, Option.mem_def, Option.some.injEq] at hy
          rw [← hy]; rfl) h
    · unfold mm_extend_heap at h
      rw [hnegm] at h
      simp only [Bool.not_eq_true] at hg
      rw [hg] at h
      simp at h

theorem malloc_ok_noAdjFree {s : AState} {n : Nat} {s' : AState} {q : Nat}
    (hWF : WF s) (h : mm_malloc s n = MRes.ok s' q) : noAdjFree s'.blocks := by
  by_cases hneg : intCastNeg n = true
  · unfold mm_malloc at h
    rw [hneg] at h
    simp at h
  · rw [Bool.not_eq_true] at hneg
    cases hfl : s.flist with
    | nil =>
      rw [mm_malloc_eq_extend hneg (Or.inl hfl)] at h
      exact extend_place_noAdjFree hWF h
    | cons x t =>
      cases hfind : findFit s.blocks s.flist (blockReq n) with
      | none =>
        unfold mm_malloc at h
        rw [hneg] at h
        dsimp only at h
        rw [hfl] at h
        unfold blockReq at hfind
        rw [hfl] at hfind
        rw [hfind] at h
        simp at h
      | some o =>
        cases o with
        | none =>
          rw [mm_malloc_eq_extend hneg (Or.inr hfind)] at h
          exact extend_place_noAdjFree hWF h
        | some a =>
          rw [mm_malloc_eq_found hneg (by rw [hfl]; simp) hfind] at h
          obtain ⟨hmem, pre, b, post, hsp, hsz⟩ := findFit_sound hfind
          have hfree : b.alloc = false := by
            have := hWF.2.2.2.1 a hmem
            unfold allocAt at this
            rw [hsp] at this
            simpa using this
          have hnoadj := hWF.2.2.1
          rw [noAdjFree, addrSplit_eq_append hsp] at hnoadj
          have hparts := chain'_parts hnoadj
          refine place_noAdjFree hsp hparts.1 hparts.2.1 ?_ h
          intro y hy
          rcases hparts.2.2.2 y hy with hb | hb
          · rw [hfree] at hb; exact absurd hb (by simp)
          · exact hb

theorem intCastNeg_of_lt {n : Nat} (h : n < 2 ^ 31) : intCastNeg n = false := by
  unfold intCastNeg
  rw [Nat.mod_eq_of_lt (by omega)]
  simp
  omega

theorem max_eq_ite (a b : Nat) : (if a > b then a else b) = Nat.max a b := by
  split_ifs with h
  · exact (Nat.max_eq_left (by omega)).symm
  · exact (Nat.max_eq_right (by omega)).symm

theorem blockReq_ge (n : Nat) : MINBLOCKSIZE + TAGS_SIZE ≤ blockReq n := by
  unfold blockReq
  have h1 : MINBLOCKSIZE ≤ (if n < MINBLOCKSIZE then MINBLOCKSIZE else n) := by
    split_ifs <;> omega
  have h2 := align_ge (if n < MINBLOCKSIZE then MINBLOCKSIZE else n)
  omega

theorem blockReq_dvd (n : Nat) : WORD_SIZE ∣ blockReq n := by
  unfold blockReq
  exact Nat.dvd_add (align_dvd _) ⟨2, rfl⟩

theorem extSize_eq_self {n : Nat} (h1 : MINBLOCKSIZE ≤ n) (h2 : WORD_SIZE ∣ n) :
    extSize n = n := by
  unfold extSize
  rw [if_neg (by omega)]
  exact align_of_dvd h2

theorem erase_count_zero {m : List Nat} (h : m.Nodup) (x : Nat) :
    (m.erase x).count x = 0 := by
  have h1 := List.count_erase_self x m
  have h2 := List.nodup_iff_count_le_one.mp h x
  omega

theorem place_ne_fail (s : AState) (a breq : Nat) (s' : AState) :
    mm_malloc_place s a breq ≠ MRes.fail s' := by
  unfold mm_malloc_place
  cases h : addrSplit s.blocks a with
  | none => simp
  | some t =>
    obtain ⟨pre, b, post⟩ := t
    dsimp only
    split_ifs with hc
    · unfold mm_break
      rw [h]
      simp
    · simp

theorem extend_fail_inv {s : AState} {n : Nat} {s' : AState}
    (h : mm_extend_heap s n = MRes.fail s') :
    s' = { s with growLog := s.growLog ++ [extSize n] } ∧ s.canGrow = false := by
  unfold mm_extend_heap at h
  by_cases h1 : intCastNeg n = true
  · rw [h1] at h
    simp at h
  · rw [Bool.not_eq_true] at h1
    rw [h1, if_neg Bool.false_ne_true] at h
    by_cases hg : s.canGrow = true
    · rw [hg] at h
      dsimp only at h
      cases hsp : addrSplit s.blocks s.epilogueAddr with
      | none => rw [hsp] at h; simp at h
      | some t =>
        obtain ⟨pre, e, post⟩ := t
        rw [hsp] at h
        cases post with
        | nil => simp at h
        | cons y t2 => simp at h
    · rw [Bool.not_eq_true] at hg
      rw [hg] at h
      dsimp only at h
      injection h with h2
      rw [hg]
      exact ⟨h2.symm, rfl⟩

theorem extend_fail_eq {s : AState} {n : Nat} (hg : s.canGrow = false)
    (hneg : intCastNeg n = false) :
    mm_extend_heap s n = MRes.fail { s with growLog := s.growLog ++ [extSize n] } := by
  unfold mm_extend_heap
  rw [hneg, if_neg Bool.false_ne_true, hg]
  rfl

theorem malloc_fail_inv {s : AState} {n : Nat} {s' : AState}
    (h : mm_malloc s n = MRes.fail s') :
    s'.blocks = s.blocks ∧ s'.flist = s.flist ∧ s'.heapSize = s.heapSize ∧
      s'.epilogueAddr = s.epilogueAddr ∧ s'.prologueAddr = s.prologueAddr ∧
      ((intCastNeg n = true ∧ s' = s) ∨ ∃ x, s'.growLog = s.growLog ++ [x]) := by
  by_cases hneg : intCastNeg n = true
  · unfold mm_malloc at h
    rw [hneg] at h
    simp only [if_pos rfl] at h
    injection h with h1
    subst h1
    exact ⟨rfl, rfl, rfl, rfl, rfl, Or.inl ⟨hneg, rfl⟩⟩
  · rw [Bool.not_eq_true] at hneg
    have hext : ∀ s1 : AState,
        (match mm_extend_heap s
            (if blockReq n > s.chunksize then blockReq n else s.chunksize) with
          | MRes.ok s2 a => mm_malloc_place s2 a (blockReq n)
          | MRes.fail s2 => MRes.fail s2
          | MRes.ub => MRes.ub) = MRes.fail s1 →
        s1.blocks = s.blocks ∧ s1.flist = s.flist ∧ s1.heapSize = s.heapSize ∧
          s1.epilogueAddr = s.epilogueAddr ∧ s1.prologueAddr = s.prologueAddr ∧
          ((intCastNeg n = true ∧ s1 = s) ∨ ∃ x, s1.growLog = s.growLog ++ [x]) := by
      intro s1 hm
      cases he : mm_extend_heap s
          (if blockReq n > s.chunksize then blockReq n else s.chunksize) with
      | ok s2 a => rw [he] at hm; exact absurd hm (place_ne_fail s2 a _ s1)
      | ub => rw [he] at hm; simp at hm
      | fail s2 =>
        rw [he] at hm
        injection hm with h1
        subst h1
        obtain ⟨h2, -⟩ := extend_fail_inv he
        subst h2
        exact ⟨rfl, rfl, rfl, rfl, rfl, Or.inr ⟨_, rfl⟩⟩
    cases hfl : s.flist with
    | nil =>
      rw [mm_malloc_eq_extend hneg (Or.inl hfl)] at h
      have hh := hext s' h
      rw [hfl] at hh
      exact hh
    | cons x t =>
      cases hfind : findFit s.blocks s.flist (blockReq n) with
      | none =>
        unfold mm_malloc at h
        rw [hneg, if_neg Bool.false_ne_true] at h
        rw [hfl] at h
        dsimp only at h
        unfold blockReq at hfind
        rw [hfl] at hfind
        rw [hfind] at h
        simp at h
      | some o =>
        cases o with
        | none =>
          rw [mm_malloc_eq_extend hneg (Or.inr hfind)] at h
          have hh := hext s' h
          rw [hfl] at hh
          exact hh
        | some a =>
          rw [mm_malloc_eq_found hneg (by rw [hfl]; simp) hfind] at h
          exact absurd h (place_ne_fail s a _ s')

theorem malloc_nofit_fail {s : AState} {n : Nat} (hg : s.canGrow = false)
    (hneg : intCastNeg n = false)
    (hmx : intCastNeg (if blockReq n > s.chunksize then blockReq n
      else s.chunksize) = false)
    (hnofit : ∀ x ∈ s.flist, ∃ szx, sizeAt s.blocks x = some szx ∧ szx < blockReq n) :
    mm_malloc s n = MRes.fail { s with growLog :=
      s.growLog ++ [extSize (if blockReq n > s.chunksize then blockReq n
        else s.chunksize)] } := by
  rw [mm_malloc_eq_extend hneg (Or.inr (findFit_exhaust hnofit))]
  rw [extend_fail_eq hg hmx]

theorem fallback_fail {s : AState} (ptrCur cpy : Nat) {size1 : Nat}
    (hg : s.canGrow = false) (hneg : intCastNeg size1 = false)
    (hmx : intCastNeg (if blockReq size1 > s.chunksize then blockReq size1
      else s.chunksize) = false)
    (hnofit : ∀ x ∈ s.flist, ∃ szx, sizeAt s.blocks x = some szx ∧ szx < blockReq size1) :
    ∃ s', mm_realloc_fallback s ptrCur cpy size1 = MRes.fail s' ∧
      s'.blocks = s.blocks ∧ s'.flist = s.flist ∧
      s'.heapSize = s.heapSize ∧ s'.epilogueAddr = s.epilogueAddr := by
  refine ⟨{ s with growLog :=
      s.growLog ++ [extSize (if blockReq size1 > s.chunksize then blockReq size1
        else s.chunksize)] },
    ?_, rfl, rfl, rfl, rfl⟩
  unfold mm_realloc_fallback
  rw [malloc_nofit_fail hg hneg hmx hnofit]

theorem chkHeapLoop_specWalk :
    ∀ (bs : List Block) (addr hi : Nat), (∀ b ∈ bs, 0 < b.size) →
      chkHeapLoop (addr + sizeSum bs.dropLast) hi bs addr = ChkRes.ok →
      specWalk hi bs.dropLast addr = true := by
  intro bs
  induction bs with
  | nil => intro addr hi _ _; rfl
  | cons b rest ih =>
    intro addr hi hpos h
    cases rest with
    | nil => rfl
    | cons c t =>
      have hdl : (b :: c :: t).dropLast = b :: (c :: t).dropLast := rfl
      rw [hdl] at h ⊢
      have hbpos : 0 < b.size := hpos b (by simp)
      have hsum : sizeSum (b :: (c :: t).dropLast) =
          b.size + sizeSum (c :: t).dropLast := by simp [sizeSum]
      unfold chkHeapLoop at h
      rw [if_neg (by omega)] at h
      split_ifs at h with h1 h2
      simp only [ne_eq, Bool.or_eq_true, decide_eq_true_eq, not_or, not_not] at h2
      unfold specWalk
      rw [Bool.and_eq_true, Bool.and_eq_true, Bool.and_eq_true]
      refine ⟨⟨⟨decide_eq_true (by omega), beq_iff_eq.mpr h2.1.symm⟩,
        beq_iff_eq.mpr h2.2.symm⟩, ?_⟩
      apply ih (addr + b.size) hi fun x hx => hpos x (List.mem_cons_of_mem b hx)
      have haddr : addr + b.size + sizeSum (c :: t).dropLast =
          addr + sizeSum (b :: (c :: t).dropLast) := by rw [hsum]; omega
      rw [haddr]
      exact h

theorem check_ok_specChecks {s : AState} (hne : s.flist ≠ [])
    (hpos : ∀ b ∈ s.blocks, 0 < b.size)
    (hepi : s.epilogueAddr = sizeSum s.blocks.dropLast)
    (hok : mm_check_heap s = ChkRes.ok) : specHeapChecks s = true := by
  unfold mm_check_heap at hok
  cases hfl : s.flist with
  | nil => exact absurd hfl hne
  | cons first rest =>
    rw [hfl] at hok
    dsimp only at hok
    cases ha : allocAt s.blocks first with
    | none => rw [ha] at hok; simp at hok
    | some fa =>
      rw [ha] at hok
      cases hszf : sizeAt s.blocks first with
      | none => rw [hszf] at hok; simp at hok
      | some fs =>
        rw [hszf] at hok
        dsimp only at hok
        by_cases hfa : fa = true
        · rw [if_pos hfa] at hok; simp at hok
        · rw [if_neg hfa] at hok
          cases hloop : chkFreeLoop s.blocks (first :: rest) rest with
          | err a' sz' m' => rw [hloop] at hok; simp at hok
          | ub => rw [hloop] at hok; simp at hok
          | ok =>
            rw [hloop] at hok
            dsimp only at hok
            by_cases hpro : 0 ≠ s.prologueAddr
            · rw [if_pos hpro] at hok; simp at hok
            · rw [if_neg hpro] at hok
              by_cases hepiq : s.heapSize - TAGS_SIZE ≠ s.epilogueAddr
              · rw [if_pos hepiq] at hok; simp at hok
              · rw [if_neg hepiq] at hok
                cases hwalk : chkHeapLoop s.epilogueAddr (s.heapSize - 1) s.blocks 0 with
                | err a' sz' m' => rw [hwalk] at hok; simp at hok
                | ub => rw [hwalk] at hok; simp at hok
                | ok =>
                  rw [hwalk] at hok
                  dsimp only at hok
                  by_cases hbound : s.epilogueAddr > s.heapSize - 1
                  · rw [if_pos hbound] at hok; simp at hok
                  · push_neg at hpro hepiq hbound
                    unfold specHeapChecks
                    rw [Bool.and_eq_true, Bool.and_eq_true, Bool.and_eq_true]
                    refine ⟨⟨⟨?_, ?_⟩, ?_⟩, ?_⟩
                    · simp [hpro.symm]
                    · simp [hepiq.symm]
                    · have := chkHeapLoop_specWalk s.blocks 0 (s.heapSize - 1) hpos
                      rw [Nat.zero_add, ← hepi] at this
                      exact this hwalk
                    · simpa using hbound

theorem realloc_shrink {s : AState} {p n a : Nat} {pre : List Block} {b : Block}
    {post : List Block}
    (hp : payload_to_block p = some a)
    (hsplit : addrSplit s.blocks a = some (pre, b, post))
    (hn0 : 0 < n) (hneg : intCastNeg n = false)
    (hdvd : WORD_SIZE ∣ b.size) (h16 : TAGS_SIZE ≤ b.size)
    (hfit : n ≤ b.size - TAGS_SIZE) :
    mm_realloc s (some p) n = MRes.ok s p := by
  unfold mm_realloc
  rw [hneg, if_neg Bool.false_ne_true]
  dsimp only
  unfold mm_realloc_rest
  rw [if_neg (by omega)]
  dsimp only
  rw [hp]
  dsimp only
  rw [hsplit]
  dsimp only
  rw [if_pos ?fit]
  case fit =>
    have hd16 : WORD_SIZE ∣ b.size - TAGS_SIZE :=
      Nat.dvd_sub' hdvd ⟨2, rfl⟩
    have := align_le hfit hd16
    omega

theorem sizeAt_isSome_of_allocAt {bs : List Block} {x : Nat} {v : Bool}
    (h : allocAt bs x = some v) : (sizeAt bs x).isSome := by
  unfold allocAt at h
  unfold sizeAt
  cases hsp : addrSplit bs x with
  | none => rw [hsp] at h; simp at h
  | some t => simp

theorem place_usable {s : AState} {a breq : Nat} {pre : List Block} {b : Block}
    {post : List Block}
    (hsplit : addrSplit s.blocks a = some (pre, b, post))
    (hge : breq ≤ b.size) (h16 : TAGS_SIZE ≤ breq) :
    ∃ s' u, mm_malloc_place s a breq = MRes.ok s' (a + WORD_SIZE) ∧
      usableAt s' (a + WORD_SIZE) = some u ∧ breq - TAGS_SIZE ≤ u ∧
      allocAt s'.blocks a = some true := by
  rw [mm_malloc_place_eq breq hsplit]
  split_ifs with hc
  · refine ⟨_, breq - TAGS_SIZE, rfl, ?_, Nat.le_refl _, ?_⟩
    · unfold usableAt payload_to_block
      rw [if_neg (by omega)]
      dsimp only
      have hcan : a + WORD_SIZE - WORD_SIZE = a := by omega
      rw [hcan]
      unfold sizeAt
      rw [addrSplit_replace hsplit (breakBlock b breq).1 ((breakBlock b breq).2 :: post)]
      rfl
    · unfold allocAt
      rw [addrSplit_replace hsplit (breakBlock b breq).1 ((breakBlock b breq).2 :: post)]
      rfl
  · refine ⟨_, b.size - TAGS_SIZE, rfl, ?_, by omega, ?_⟩
    · unfold usableAt payload_to_block
      rw [if_neg (by omega)]
      dsimp only
      have hcan : a + WORD_SIZE - WORD_SIZE = a := by omega
      rw [hcan]
      unfold sizeAt
      rw [addrSplit_replace hsplit (block_set_allocated b true) post]
      rfl
    · unfold allocAt
      rw [addrSplit_replace hsplit (block_set_allocated b true) post]
      rfl

theorem extSize_ge (n : Nat) : n ≤ extSize n := by
  unfold extSize
  have h := align_ge (if n < MINBLOCKSIZE then MINBLOCKSIZE else n)
  split_ifs at h ⊢ <;> omega

theorem cons_erase_count {l : List Nat} (h : l.Nodup) (x : Nat) :
    (x :: l.erase x).count x = 1 := by
  rw [List.count_cons_self, erase_count_zero h x]

theorem erase_erase_count_zero {m : List Nat} (h : m.Nodup) (x y : Nat) :
    ((m.erase x).erase y).count x = 0 := by
  have h1 : ((m.erase x).erase y).count x ≤ (m.erase x).count x :=
    (List.erase_sublist y (m.erase x)).count_le x
  have h2 := erase_count_zero h x
  omega

theorem extend_state_split {s : AState} (hWF : WF s) (mx : Nat) :
    addrSplit (s.blocks.dropLast ++
        [⟨extSize mx, false, extSize mx, false,
          List.replicate (extSize mx / WORD_SIZE - 2) 0⟩, sentinelB]) s.epilogueAddr =
      some (s.blocks.dropLast,
        ⟨extSize mx, false, extSize mx, false,
          List.replicate (extSize mx / WORD_SIZE - 2) 0⟩, [sentinelB]) := by
  obtain ⟨epi, hdecomp, -, -⟩ := WF_epilogue_split hWF
  have hpos : ∀ x ∈ s.blocks.dropLast, 0 < x.size := fun x hx =>
    (hWF.1 x (by rw [hdecomp]; exact List.mem_append_left _ hx)).1
  rw [hWF.2.2.2.2.2.1]
  exact addrSplit_of_append _ _ _ hpos

theorem extend_place_usable {s : AState} (hWF : WF s) {mx breq : Nat}
    (hneg : intCastNeg mx = false) (hg : s.canGrow = true)
    (hge : breq ≤ extSize mx) (h16 : TAGS_SIZE ≤ breq) :
    ∃ s' u, (match mm_extend_heap s mx with
        | MRes.ok s1 a => mm_malloc_place s1 a breq
        | MRes.fail s1 => MRes.fail s1
        | MRes.ub => MRes.ub) = MRes.ok s' (s.epilogueAddr + WORD_SIZE) ∧
      usableAt s' (s.epilogueAddr + WORD_SIZE) = some u ∧ breq - TAGS_SIZE ≤ u ∧
      allocAt s'.blocks s.epilogueAddr = some true := by
  obtain ⟨epi, hdecomp, hepial, hsplitE⟩ := WF_epilogue_split hWF
  rw [mm_extend_heap_eq hneg hg hsplitE]
  dsimp only
  exact place_usable (extend_state_split hWF mx) hge h16

/-- C1: the claim says `resize(NULL, s)` for `s > 0` behaves as
`allocate(s)` and returns the new payload pointer.  The code instead
discards the `mm_malloc` result and falls through to dereference the null
pointer: evaluating the model at `resize(NULL, 32)` on a freshly
initialised heap ends in undefined behaviour instead of returning the new
payload.  (The `resize(p, 0) ≡ release(p)` half does hold: it frees the
block and returns NULL, shown on the one-allocation heap.) -/
theorem claim_C1_null_realloc :
    mm_realloc initState none 32 = MRes.ub ∧
      mm_realloc oneAllocS (some 24) 0 = MRes.fail freedS := ⟨rfl, rfl⟩

/-- C2: the claim says every relocating branch of `resize` preserves the
first pre-resize-payload-size bytes.  On a heap where the resized block's
previous neighbour is free but the merge is still too small, the code
redirects `ptr` to the merged block's base without moving the live bytes,
so the fallback copy duplicates the old free block's scratch words: the
pre-call payload at address 56 is the words 111, 222, but the payload
returned by `resize(56, 56)` begins with the words 0, 0. -/
theorem claim_C2_lost_bytes :
    dataAt c2S.blocks 48 = some [111, 222] ∧
      resPayloadTake (mm_realloc c2S (some 56) 56) 2 = some [0, 0] := ⟨rfl, rfl⟩

/-- C3: after every release, and after every allocation that extended the
heap (in this program the growth primitive is reached only through
`mm_malloc`), no two physically adjacent blocks are both free — invariant
I2 is restored before the operation returns. -/
theorem claim_C3_coalescing_closure :
    (∀ (s : AState) (p : Nat) (s' : AState),
        WF s → mm_free s p = some s' → noAdjFree s'.blocks) ∧
    (∀ (s : AState) (n : Nat) (s' : AState) (q : Nat),
        WF s → mm_malloc s n = MRes.ok s' q → noAdjFree s'.blocks) :=
  ⟨fun _ _ _ hWF h => free_noAdjFree hWF h,
   fun _ _ _ _ hWF h => malloc_ok_noAdjFree hWF h⟩

/-- Witness for C3: releasing the allocated block of `oneAllocS` and
allocating 5 bytes on a fresh heap (which extends the heap) both leave a
heap with no two adjacent free blocks. -/
theorem claim_C3_witness :
    WF oneAllocS ∧ noAdjFree freedS.blocks ∧ noAdjFree mallocedS.blocks :=
  ⟨by decide,
   claim_C3_coalescing_closure.1 oneAllocS 24 freedS (by decide) (by decide),
   claim_C3_coalescing_closure.2 initState 5 mallocedS 24 (by decide) (by decide)⟩

/-- C4: `allocate` first-fit searches from the free-list anchor and
returns the payload of the first free block whose size is at least the
required block size, with no heap growth; when no free block fits (or the
list is empty) it grows the heap exactly once, by the maximum of the
required block size and the chunk size, and serves the request from that
extension (the returned payload sits at the old Epilogue address).  The
`intCastNeg` premise on the growth size reflects the assertion at the top
of `mm_extend_heap`. -/
theorem claim_C4_first_fit :
    ∀ (s : AState) (n : Nat), WF s → intCastNeg n = false →
      ((∀ (l1 : List Nat) (a : Nat) (l2 : List Nat) (sza : Nat),
          s.flist = l1 ++ a :: l2 →
          (∀ x ∈ l1, ∃ szx, sizeAt s.blocks x = some szx ∧ szx < blockReq n) →
          sizeAt s.blocks a = some sza → blockReq n ≤ sza →
          ∃ s', mm_malloc s n = MRes.ok s' (a + WORD_SIZE) ∧
            s'.growLog = s.growLog) ∧
       ((∀ x ∈ s.flist, ∃ szx, sizeAt s.blocks x = some szx ∧ szx < blockReq n) →
          s.canGrow = true →
          intCastNeg (if blockReq n > s.chunksize then blockReq n
            else s.chunksize) = false →
          ∃ s', mm_malloc s n = MRes.ok s' (s.epilogueAddr + WORD_SIZE) ∧
            s'.growLog = s.growLog ++
              [if blockReq n > s.chunksize then blockReq n else s.chunksize])) := by
  intro s n hWF hneg
  constructor
  · intro l1 a l2 sza hfl h1 h2 h3
    have hfind : findFit s.blocks s.flist (blockReq n) = some (some a) := by
      rw [hfl]; exact findFit_app l2 h1 h2 h3
    rw [mm_malloc_eq_found hneg (by rw [hfl]; simp) hfind]
    unfold sizeAt at h2
    cases hsp : addrSplit s.blocks a with
    | none => rw [hsp] at h2; simp at h2
    | some t =>
      obtain ⟨pre, b, post⟩ := t
      rw [mm_malloc_place_eq (blockReq n) hsp]
      split_ifs with hc
      · exact ⟨_, rfl, rfl⟩
      · exact ⟨_, rfl, rfl⟩
  · intro hnofit hg hmx
    set mx := if blockReq n > s.chunksize then blockReq n else s.chunksize with hmxdef
    have hfind := findFit_exhaust hnofit
    rw [mm_malloc_eq_extend hneg (Or.inr hfind)]
    obtain ⟨epi, hdecomp, hepial, hsplitE⟩ := WF_epilogue_split hWF
    rw [mm_extend_heap_eq hmx hg hsplitE]
    dsimp only
    have hmax48 : MINBLOCKSIZE ≤ mx := by
      have hbr := blockReq_ge n
      rw [hmxdef]
      unfold MINBLOCKSIZE TAGS_SIZE WORD_SIZE at hbr ⊢
      split_ifs <;> omega
    have hmaxdvd : WORD_SIZE ∣ mx := by
      rw [hmxdef]
      split_ifs
      · exact blockReq_dvd n
      · exact hWF.2.2.2.2.2.2.2.2.1
    rw [extSize_eq_self hmax48 hmaxdvd]
    have hsplit1 := extend_state_split hWF mx
    rw [extSize_eq_self hmax48 hmaxdvd] at hsplit1
    rw [mm_malloc_place_eq (blockReq n) hsplit1]
    split_ifs with hc
    · exact ⟨_, rfl, rfl⟩
    · exact ⟨_, rfl, rfl⟩

/-- Witness for C4 at a fresh heap: `allocate(5)` grows the heap once by
`max(blockReq 5, 1024) = 1024` and returns the payload at the old
Epilogue address. -/
theorem claim_C4_witness :
    ∃ s', mm_malloc initState 5 = MRes.ok s' (initState.epilogueAddr + WORD_SIZE) ∧
      s'.growLog = initState.growLog ++
        [if blockReq 5 > initState.chunksize then blockReq 5
         else initState.chunksize] :=
  (claim_C4_first_fit initState 5 (by decide) (by decide)).2
    (fun x hx => absurd hx (List.not_mem_nil x)) rfl (by decide)

/-- C5: in `allocate`, the chosen candidate is split exactly when its size
exceeds the required block size by at least `8 * MINBLOCKSIZE`; when
split, the candidate is removed from the free list, shrunk to exactly the
required size and marked allocated, and the remainder is carved into a
free block that is inserted into the free list; otherwise the whole
candidate is taken unsplit (removed from the free list and marked
allocated). -/
theorem claim_C5_split_policy :
    ∀ (s : AState) (n : Nat) (l1 : List Nat) (a : Nat) (l2 : List Nat)
      (pre : List Block) (b : Block) (post : List Block),
      intCastNeg n = false →
      s.flist = l1 ++ a :: l2 →
      (∀ x ∈ l1, ∃ szx, sizeAt s.blocks x = some szx ∧ szx < blockReq n) →
      addrSplit s.blocks a = some (pre, b, post) →
      blockReq n ≤ b.size →
      ((8 * MINBLOCKSIZE ≤ b.size - blockReq n →
         mm_malloc s n = MRes.ok { s with
           blocks := pre ++
             ⟨blockReq n, true, blockReq n, true,
               b.data.take (blockReq n / WORD_SIZE - 2)⟩ ::
             ⟨b.size - blockReq n, false, b.size - blockReq n, false,
               b.data.drop (blockReq n / WORD_SIZE)⟩ :: post
           flist := (a + blockReq n) :: s.flist.erase a } (a + WORD_SIZE)) ∧
       (b.size - blockReq n < 8 * MINBLOCKSIZE →
         mm_malloc s n = MRes.ok { s with
           blocks := pre ++ block_set_allocated b true :: post
           flist := s.flist.erase a } (a + WORD_SIZE))) := by
  intro s n l1 a l2 pre b post hneg hfl h1 hsp hge
  have hsz : sizeAt s.blocks a = some b.size := by
    unfold sizeAt; rw [hsp]; rfl
  have hfind : findFit s.blocks s.flist (blockReq n) = some (some a) := by
    rw [hfl]; exact findFit_app l2 h1 hsz hge
  rw [mm_malloc_eq_found hneg (by rw [hfl]; simp) hfind]
  rw [mm_malloc_place_eq (blockReq n) hsp]
  constructor
  · intro hc
    rw [if_pos hc]
    rfl
  · intro hc
    rw [if_neg (by omega)]

/-- Witness for C5: on the heap with one 560-byte free block, a 5-byte
request (required block size 48) leaves an excess of 512 ≥ 256, so the
block is split. -/
theorem claim_C5_witness :
    mm_malloc bigFreeS 5 = MRes.ok { bigFreeS with
      blocks := [sentinelB] ++
        ⟨blockReq 5, true, blockReq 5, true,
          (List.replicate 68 0).take (blockReq 5 / WORD_SIZE - 2)⟩ ::
        ⟨560 - blockReq 5, false, 560 - blockReq 5, false,
          (List.replicate 68 0).drop (blockReq 5 / WORD_SIZE)⟩ :: [sentinelB]
      flist := (16 + blockReq 5) :: bigFreeS.flist.erase 16 } (16 + WORD_SIZE) :=
  (claim_C5_split_policy bigFreeS 5 [] 16 [] [sentinelB]
      ⟨560, false, 560, false, List.replicate 68 0⟩ [sentinelB]
      (by decide) rfl (fun x hx => absurd hx (List.not_mem_nil x))
      (by decide) (by decide)).1 (by decide)

/-- C6: `coalesce(block)` removes the block from the free list; a free
physical-next neighbour is removed and its size added to the block; a free
physical-previous neighbour is removed, the block's size is added to it,
and the previous (lowest-addressed) block survives; the single resulting
block is reinserted into the free list exactly once (its address appears
exactly once afterwards). -/
theorem claim_C6_coalesce :
    ∀ (s : AState) (a : Nat) (pre : List Block) (b next : Block)
      (post1 : List Block) (prevb : Block),
      addrSplit s.blocks a = some (pre, b, next :: post1) →
      pre.getLast? = some prevb →
      s.flist.Nodup →
      ((next.alloc = true → prevb.alloc = true →
         mm_coalesce s a = some
           { s with blocks := pre ++ b :: next :: post1
                    flist := a :: s.flist.erase a } ∧
         (a :: s.flist.erase a).count a = 1) ∧
       (next.alloc = false → prevb.alloc = true →
         mm_coalesce s a = some { s with
             blocks := pre ++ mergeBlocks b next b.alloc :: post1
             flist := a :: ((s.flist.erase a).erase (a + b.size)) } ∧
         (mergeBlocks b next b.alloc).size = b.size + next.size ∧
         (a :: ((s.flist.erase a).erase (a + b.size))).count a = 1) ∧
       (next.alloc = true → prevb.alloc = false →
         mm_coalesce s a = some { s with
             blocks := pre.dropLast ++ mergeBlocks prevb b prevb.alloc :: next :: post1
             flist := (a - prevb.fsize) ::
               ((s.flist.erase a).erase (a - prevb.fsize)) } ∧
         (mergeBlocks prevb b prevb.alloc).size = prevb.size + b.size ∧
         ((a - prevb.fsize) ::
           ((s.flist.erase a).erase (a - prevb.fsize))).count (a - prevb.fsize) = 1) ∧
       (next.alloc = false → prevb.alloc = false →
         mm_coalesce s a = some { s with
             blocks := pre.dropLast ++
               mergeBlocks prevb (mergeBlocks b next b.alloc) prevb.alloc :: post1
             flist := (a - prevb.fsize) ::
               (((s.flist.erase a).erase (a + b.size)).erase (a - prevb.fsize)) } ∧
         (mergeBlocks prevb (mergeBlocks b next b.alloc) prevb.alloc).size =
           prevb.size + (b.size + next.size) ∧
         ((a - prevb.fsize) ::
           (((s.flist.erase a).erase (a + b.size)).erase
             (a - prevb.fsize))).count (a - prevb.fsize) = 1)) := by
  intro s a pre b next post1 prevb hsp hl hnd
  refine ⟨?_, ?_, ?_, ?_⟩
  · intro hn hp
    exact ⟨mm_coalesce_eq_aa hsp hl hn hp, cons_erase_count hnd a⟩
  · intro hn hp
    refine ⟨mm_coalesce_eq_fa hsp hl hn hp, rfl, ?_⟩
    rw [List.count_cons_self, erase_erase_count_zero hnd a (a + b.size)]
  · intro hn hp
    refine ⟨mm_coalesce_eq_af hsp hl hn hp, rfl, ?_⟩
    exact cons_erase_count (hnd.erase a) (a - prevb.fsize)
  · intro hn hp
    refine ⟨mm_coalesce_eq_ff hsp hl hn hp, rfl, ?_⟩
    exact cons_erase_count ((hnd.erase a).erase (a + b.size)) (a - prevb.fsize)

/-- Witness for C6 on `oneFreeS`: coalescing the free block at 16, whose
physical neighbours (Prologue and an allocated block) are both allocated,
pulls it and reinserts it exactly once, leaving the heap unchanged. -/
theorem claim_C6_witness :
    mm_coalesce oneFreeS 16 = some
      { oneFreeS with
          blocks := [sentinelB] ++ ⟨32, false, 32, false, [0, 0]⟩ ::
            ⟨32, true, 32, true, [3, 4]⟩ :: [sentinelB]
          flist := 16 :: oneFreeS.flist.erase 16 } ∧
      (16 :: oneFreeS.flist.erase 16).count 16 = 1 := by
  have h := claim_C6_coalesce oneFreeS 16 [sentinelB] ⟨32, false, 32, false, [0, 0]⟩
    ⟨32, true, 32, true, [3, 4]⟩ [sentinelB] sentinelB
    (by decide) (by decide) (by decide)
  exact h.1 rfl rfl

/-- C7: when the growth primitive fails, `mm_extend_heap` returns the
failure sentinel with the heap, free list and sentinels untouched (only
the instrumentation log of attempted growth sizes records the one
attempt); `mm_malloc` surfaces this as NULL with the heap unchanged and at
most one growth attempt (never retried); and `resize`'s fallback path
surfaces the same failure as NULL. -/
theorem claim_C7_growth_failure :
    (∀ (s : AState) (n : Nat) (s' : AState), mm_extend_heap s n = MRes.fail s' →
       s' = { s with growLog := s.growLog ++ [extSize n] } ∧ s.canGrow = false) ∧
    (∀ (s : AState) (n : Nat) (s' : AState), mm_malloc s n = MRes.fail s' →
       s'.blocks = s.blocks ∧ s'.flist = s.flist ∧ s'.heapSize = s.heapSize ∧
       s'.epilogueAddr = s.epilogueAddr ∧ s'.prologueAddr = s.prologueAddr ∧
       ((intCastNeg n = true ∧ s' = s) ∨ ∃ x, s'.growLog = s.growLog ++ [x])) ∧
    (∀ (s : AState) (ptrCur cpy size1 : Nat), s.canGrow = false →
       intCastNeg size1 = false →
       intCastNeg (if blockReq size1 > s.chunksize then blockReq size1
         else s.chunksize) = false →
       (∀ x ∈ s.flist, ∃ szx, sizeAt s.blocks x = some szx ∧ szx < blockReq size1) →
       ∃ s', mm_realloc_fallback s ptrCur cpy size1 = MRes.fail s' ∧
         s'.blocks = s.blocks ∧ s'.flist = s.flist ∧ s'.heapSize = s.heapSize ∧
         s'.epilogueAddr = s.epilogueAddr) :=
  ⟨fun _ _ _ h => extend_fail_inv h,
   fun _ _ _ h => malloc_fail_inv h,
   fun _ p c _ hg hneg hmx hnofit => fallback_fail p c hg hneg hmx hnofit⟩

/-- Witness for C7 on `noGrowS` (growth always refused): a direct
extension fails with only the attempt logged; `allocate(100)` surfaces
NULL after exactly one attempted growth; the resize fallback path
surfaces NULL as well. -/
theorem claim_C7_witness :
    (noGrowS.canGrow = false ∧
      { noGrowS with growLog := noGrowS.growLog ++ [extSize 100] }.blocks =
        noGrowS.blocks) ∧
    ({ noGrowS with growLog := [1024] }.blocks = noGrowS.blocks ∧
      ((intCastNeg 100 = true ∧
          { noGrowS with growLog := [1024] } = noGrowS) ∨
        ∃ x, ({ noGrowS with growLog := [1024] } : AState).growLog =
          noGrowS.growLog ++ [x])) ∧
    (∃ s', mm_realloc_fallback noGrowS 24 16 8 = MRes.fail s' ∧
      s'.blocks = noGrowS.blocks ∧ s'.flist = noGrowS.flist ∧
      s'.heapSize = noGrowS.heapSize ∧ s'.epilogueAddr = noGrowS.epilogueAddr) :=
  ⟨⟨(claim_C7_growth_failure.1 noGrowS 100
      { noGrowS with growLog := noGrowS.growLog ++ [extSize 100] } (by decide)).2, rfl⟩,
   ⟨(claim_C7_growth_failure.2.1 noGrowS 100
      { noGrowS with growLog := [1024] } (by decide)).1,
    (claim_C7_growth_failure.2.1 noGrowS 100
      { noGrowS with growLog := [1024] } (by decide)).2.2.2.2.2⟩,
   claim_C7_growth_failure.2.2 noGrowS 24 16 8 rfl (by decide) (by decide)
     (fun x hx => absurd hx (List.not_mem_nil x))⟩

/-- C8 counterexample: with an empty free list the checker returns 0
immediately, even on a heap whose interior block has a footer size (24)
different from its header size (32) — so it does not, for every heap
state, verify the listed checks before returning 0. -/
theorem claim_C8_counterexample :
    mm_check_heap tagMismatchS = ChkRes.ok ∧
      specHeapChecks tagMismatchS = false := ⟨rfl, rfl⟩

/-- C8 (amended): when the free list is non-empty (and the address
bookkeeping is consistent: positive block sizes, `_epilogue` at the sum of
the sizes before the last block), `mm_check_heap` returns 0 only when the
claim's checks pass — the heap's low bound is the Prologue, the high bound
is the Epilogue, and every physical block from Prologue to Epilogue is in
bounds with matching header and footer; on a violation it stops with the
offending block's address, size and a description (`ChkRes.err`).  With an
empty free list it returns 0 unconditionally. -/
theorem claim_C8_amended :
    ∀ s : AState, s.flist ≠ [] → (∀ b ∈ s.blocks, 0 < b.size) →
      s.epilogueAddr = sizeSum s.blocks.dropLast →
      mm_check_heap s = ChkRes.ok → specHeapChecks s = true :=
  fun _ hne hpos hepi hok => check_ok_specChecks hne hpos hepi hok

/-- Witness for the amended C8: on `oneFreeS` (non-empty free list) the
checker returns 0 and, by the theorem, the claim's checks indeed pass. -/
theorem claim_C8_witness : specHeapChecks oneFreeS = true :=
  claim_C8_amended oneFreeS (by decide) (by decide) (by decide) (by decide)

/-- C9 counterexample: at `s = 0` the claim's precondition (the rounded
request fits the current block) holds, but `resize(ptr, 0)` releases the
block and returns NULL instead of returning `ptr` with the heap
unchanged. -/
theorem claim_C9_counterexample :
    usableAt oneAllocS 24 = some 16 ∧
      mm_realloc oneAllocS (some 24) 0 ≠ MRes.ok oneAllocS 24 := by
  refine ⟨rfl, ?_⟩
  intro h
  exact absurd h (by decide)

/-- C9 (amended): for every currently allocated payload `p` and every
size `0 < n` (whose int cast is non-negative) at most the block's usable
payload size, `resize(p, n)` returns the same pointer and leaves the
entire allocator state unchanged — no shrink-to-fit. -/
theorem claim_C9_amended :
    ∀ (s : AState) (p n a : Nat) (pre : List Block) (b : Block) (post : List Block),
      WF s → payload_to_block p = some a →
      addrSplit s.blocks a = some (pre, b, post) →
      b.alloc = true → 0 < n → intCastNeg n = false →
      n ≤ b.size - TAGS_SIZE →
      mm_realloc s (some p) n = MRes.ok s p := by
  intro s p n a pre b post hWF hp hsp hb hn0 hneg hfit
  have hmem : b ∈ s.blocks := by
    rw [addrSplit_eq_append hsp]
    exact List.mem_append_right _ (List.mem_cons_self _ _)
  obtain ⟨-, -, -, hdvd, h16⟩ := hWF.1 b hmem
  exact realloc_shrink hp hsp hn0 hneg hdvd h16 hfit

/-- Witness for the amended C9: shrinking the 16-byte-payload block at 24
to 8 bytes returns the same pointer and the same state. -/
theorem claim_C9_witness : mm_realloc oneAllocS (some 24) 8 = MRes.ok oneAllocS 24 :=
  claim_C9_amended oneAllocS 24 8 16 [sentinelB] ⟨32, true, 32, true, [5, 6]⟩
    [sentinelB] (by decide) (by decide) (by decide) rfl (by decide) (by decide)
    (by decide)

/-- C10: `allocate(0)` does not fail when growth is available: it returns
a payload of an allocated block with usable size at least `MINBLOCKSIZE`
(the zero request is padded to the minimum before alignment and tag
overhead); `allocate` returns NULL while leaving the growth log untouched
exactly for the sizes whose cast to a signed `int` is negative; and every
such size exceeds `INT_MAX`. -/
theorem claim_C10_zero_alloc :
    (∀ s : AState, WF s → s.canGrow = true →
       ∃ s' q u, mm_malloc s 0 = MRes.ok s' q ∧ usableAt s' q = some u ∧
         MINBLOCKSIZE ≤ u ∧ allocAt s'.blocks (q - WORD_SIZE) = some true) ∧
    (∀ (s : AState) (n : Nat),
       (∃ s', mm_malloc s n = MRes.fail s' ∧ s'.growLog = s.growLog) ↔
         intCastNeg n = true) ∧
    (∀ n : Nat, intCastNeg n = true → INT_MAX < n) := by
  refine ⟨?_, ?_, ?_⟩
  · intro s hWF hg
    have hneg0 : intCastNeg 0 = false := by decide
    have hbr : blockReq 0 = 48 := by decide
    have hextcase : (s.flist = [] ∨ findFit s.blocks s.flist (blockReq 0) = some none) →
        ∃ s' q u, mm_malloc s 0 = MRes.ok s' q ∧ usableAt s' q = some u ∧
          MINBLOCKSIZE ≤ u ∧ allocAt s'.blocks (q - WORD_SIZE) = some true := by
      intro hca
      have hchlt := hWF.2.2.2.2.2.2.2.2.2
      have hmxlt : (if blockReq 0 > s.chunksize then blockReq 0 else s.chunksize)
          < 2 ^ 31 := by
        rw [hbr]
        split_ifs <;> omega
      have hmxneg := intCastNeg_of_lt hmxlt
      have hge : blockReq 0 ≤ extSize
          (if blockReq 0 > s.chunksize then blockReq 0 else s.chunksize) := by
        have h1 := extSize_ge (if blockReq 0 > s.chunksize then blockReq 0 else s.chunksize)
        have h2 : blockReq 0 ≤
            (if blockReq 0 > s.chunksize then blockReq 0 else s.chunksize) := by
          split_ifs <;> omega
        omega
      obtain ⟨s', u, hpl, hus, hub, hal⟩ :=
        extend_place_usable hWF hmxneg hg hge (by decide)
      rw [mm_malloc_eq_extend hneg0 hca]
      refine ⟨s', s.epilogueAddr + WORD_SIZE, u, hpl, hus, by
        rw [hbr] at hub
        unfold MINBLOCKSIZE TAGS_SIZE WORD_SIZE at *
        omega, ?_⟩
      have hq : s.epilogueAddr + WORD_SIZE - WORD_SIZE = s.epilogueAddr := by omega
      rw [hq]
      exact hal
    cases hfl : s.flist with
    | nil => exact hextcase (Or.inl hfl)
    | cons x t =>
      have htot : ∀ y ∈ s.flist, (sizeAt s.blocks y).isSome := fun y hy =>
        sizeAt_isSome_of_allocAt (hWF.2.2.2.1 y hy)
      obtain ⟨o, ho⟩ := @findFit_total s.blocks s.flist (blockReq 0) htot
      cases o with
      | none => exact hextcase (Or.inr ho)
      | some a =>
        rw [mm_malloc_eq_found hneg0 (by rw [hfl]; simp) ho]
        obtain ⟨hmem, pre, b, post, hsp, hsz⟩ := findFit_sound ho
        obtain ⟨s', u, hpl, hus, hub, hal⟩ := place_usable hsp hsz (by rw [hbr]; decide)
        refine ⟨s', a + WORD_SIZE, u, hpl, hus, by
          rw [hbr] at hub
          unfold MINBLOCKSIZE TAGS_SIZE WORD_SIZE at *
          omega, ?_⟩
        have hq : a + WORD_SIZE - WORD_SIZE = a := by omega
        rw [hq]
        exact hal
  · intro s n
    constructor
    · rintro ⟨s', hf, hlog⟩
      by_cases hneg : intCastNeg n = true
      · exact hneg
      · exfalso
        obtain ⟨-, -, -, -, -, hor⟩ := malloc_fail_inv hf
        rcases hor with ⟨hn, -⟩ | ⟨x, hx⟩
        · exact hneg hn
        · rw [hlog] at hx
          have hlen := congrArg List.length hx
          simp at hlen
    · intro hneg
      refine ⟨s, ?_, rfl⟩
      unfold mm_malloc
      rw [hneg, if_pos rfl]
  · intro n h
    have h2 : 2 ^ 31 ≤ n % 2 ^ 32 := by
      unfold intCastNeg at h
      simpa using h
    have h3 := Nat.mod_le n (2 ^ 32)
    unfold INT_MAX
    omega

/-- Witness for C10: on a fresh heap, `allocate(0)` succeeds with a
32-byte usable payload; size `2^31` is rejected without any growth
attempt; and `2^31` exceeds `INT_MAX`. -/
theorem claim_C10_witness :
    (∃ s' q u, mm_malloc initState 0 = MRes.ok s' q ∧ usableAt s' q = some u ∧
       MINBLOCKSIZE ≤ u ∧ allocAt s'.blocks (q - WORD_SIZE) = some true) ∧
    intCastNeg (2 ^ 31) = true ∧ INT_MAX < 2 ^ 31 :=
  ⟨claim_C10_zero_alloc.1 initState (by decide) rfl,
   (claim_C10_zero_alloc.2.1 initState (2 ^ 31)).mp
     ⟨initState, by decide, rfl⟩,
   claim_C10_zero_alloc.2.2 (2 ^ 31) (by decide)⟩

end MM
